import Mathlib

/-!
Verification model of the xbowbench-manager fleet manager.

The two modules under verification are `src/lib/docker.ts` (fleet state
aggregation: container matching, status derivation, port aggregation,
image removal, manifest parsing, output ordering) and `src/lib/fixer.ts`
(the compatibility patcher: `analyzeBenchmark` / `fixBenchmark`).

Strings are modelled as `List Char`.  The JavaScript string and regex
operations the source uses (`includes`, `split`, `join`, `replace` with
the concrete patterns of the source) are modelled by executable functions
below.  Each definition cites the source lines it embeds.  Regex
replacement with the `g` flag is modelled by a scanner that walks the
string left to right, applies the (deterministic) matcher at each
position, emits the replacement and resumes after the matched span,
exactly as the JS engine does for these patterns (none of the patterns in
the source needs backtracking across positions; where a greedy piece is
followed by a piece that cannot match the same characters, maximal munch
is the unique match, which is noted at each matcher).
-/

set_option maxRecDepth 16384

namespace XBow

/-- Strings as lists of characters (JS strings in the model). -/
abbrev Chars := List Char

/-- Character list of a Lean string literal. -/
def lit (s : String) : Chars := s.data

/-- JS `String.prototype.toLowerCase`, ASCII range (all source literals are ASCII). -/
def toLowerC (s : Chars) : Chars := s.map Char.toLower

/-- Case-insensitive character equality, as the `i` regex flag canonicalises
ASCII letters. -/
def lowEq (a b : Char) : Bool := a.toLower == b.toLower

/-- `hasPre p s` : `p` is a prefix of `s` (exact characters). -/
def hasPre : Chars → Chars → Bool
  | [], _ => true
  | _ :: _, [] => false
  | p :: ps, c :: cs => p == c && hasPre ps cs

/-- `hasPreCI p s` : `p` is a prefix of `s` up to ASCII case. -/
def hasPreCI : Chars → Chars → Bool
  | [], _ => true
  | _ :: _, [] => false
  | p :: ps, c :: cs => lowEq p c && hasPreCI ps cs

/-- JS `s.includes(p)` : `p` occurs as a contiguous substring of `s`. -/
def containsS (s p : Chars) : Bool :=
  match s with
  | [] => hasPre p []
  | _ :: cs => hasPre p s || containsS cs p

/-- JS regex `\s` on the characters the source manipulates. -/
def isWs (c : Char) : Bool :=
  c == ' ' || c == '\t' || c == '\n' || c == '\r' || c == '\x0b' || c == '\x0c'

/-- Split a maximal whitespace run off the front: `(run, rest)`. -/
def spanWs : Chars → Chars × Chars
  | [] => ([], [])
  | c :: cs => if isWs c then let p := spanWs cs; (c :: p.1, p.2) else ([], c :: cs)

/-- JS regex `\d`. -/
def isDigitC (c : Char) : Bool := '0' ≤ c && c ≤ '9'

/-- Split a maximal digit run off the front: `(run, rest)`. -/
def spanDigits : Chars → Chars × Chars
  | [] => ([], [])
  | c :: cs => if isDigitC c then let p := spanDigits cs; (c :: p.1, p.2) else ([], c :: cs)

/-- JS `parseInt` on a nonempty decimal digit run (exact, `Nat`-valued). -/
def digitsToNat (ds : Chars) : Nat :=
  ds.foldl (fun a c => 10 * a + (c.toNat - 48)) 0

/-- JS `String(n)` for a natural number. -/
def natChars (n : Nat) : Chars := (Nat.repr n).data

/-- JS `String.prototype.trim` (whitespace off both ends). -/
def trimWs (s : Chars) : Chars :=
  ((s.dropWhile isWs).reverse.dropWhile isWs).reverse

/-- JS `content.split('\n')`. -/
def splitNl : Chars → List Chars
  | [] => [[]]
  | c :: cs =>
    if c == '\n' then [] :: splitNl cs
    else
      match splitNl cs with
      | [] => [[c]]
      | l :: ls => (c :: l) :: ls

/-- JS `lines.join('\n')`. -/
def joinNl (ls : List Chars) : Chars := (ls.intersperse ['\n']).flatten

/- ### Basic lemmas about the string model -/

theorem hasPre_iff (p s : Chars) : hasPre p s = true ↔ ∃ t, s = p ++ t := by
  induction p generalizing s with
  | nil => simp [hasPre]
  | cons a ps ih =>
    cases s with
    | nil => simp [hasPre]
    | cons c cs =>
      simp only [hasPre, Bool.and_eq_true, beq_iff_eq, ih, List.cons_append, List.cons.injEq]
      constructor
      · rintro ⟨rfl, t, rfl⟩; exact ⟨t, rfl, rfl⟩
      · rintro ⟨t, rfl, rfl⟩; exact ⟨rfl, t, rfl⟩

theorem hasPre_append (p t : Chars) : hasPre p (p ++ t) = true :=
  (hasPre_iff p (p ++ t)).mpr ⟨t, rfl⟩

theorem containsS_iff (s p : Chars) :
    containsS s p = true ↔ ∃ a b, s = a ++ p ++ b := by
  induction s with
  | nil =>
    simp only [containsS, hasPre_iff]
    constructor
    · rintro ⟨t, ht⟩
      exact ⟨[], t, by simpa using ht⟩
    · rintro ⟨a, b, h⟩
      have ha : a = [] := by
        cases a with
        | nil => rfl
        | cons x xs => simp at h
      subst ha
      exact ⟨b, by simpa using h⟩
  | cons c cs ih =>
    simp only [containsS, Bool.or_eq_true, hasPre_iff, ih]
    constructor
    · rintro (⟨t, ht⟩ | ⟨a, b, h⟩)
      · exact ⟨[], t, by simpa using ht⟩
      · exact ⟨c :: a, b, by simp [h]⟩
    · rintro ⟨a, b, h⟩
      cases a with
      | nil => exact Or.inl ⟨b, by simpa using h⟩
      | cons x xs =>
        simp only [List.cons_append, List.cons.injEq] at h
        exact Or.inr ⟨xs, b, h.2⟩

theorem containsS_of_middle (a p b : Chars) : containsS (a ++ p ++ b) p = true :=
  (containsS_iff _ p).mpr ⟨a, b, rfl⟩

theorem containsS_cons_of (c : Char) (s p : Chars) (h : containsS s p = true) :
    containsS (c :: s) p = true := by
  simp [containsS, h]

theorem containsS_append_left (a s p : Chars) (h : containsS s p = true) :
    containsS (a ++ s) p = true := by
  induction a with
  | nil => simpa using h
  | cons c cs ih => exact containsS_cons_of c _ p ih

/- ### A generic model of JS `String.replace` with a `g`-flagged regex

`tryM s = some (r, k)` means the regex has a (unique, deterministic) match
spanning the first `k` characters of `s`, to be replaced by `r`.  All the
matchers below consume at least one character on success.  The scanner
walks the string left to right: on a match it emits the replacement and
resumes right after the matched span; otherwise it keeps the character and
moves on — exactly the JS `g`-replacement discipline (non-overlapping,
leftmost, resume at match end).  Fuel (`n`) bounds the number of steps;
`n = s.length` always suffices since every step consumes a character. -/

def scanRep (tryM : Chars → Option (Chars × Nat)) : Nat → Chars → Chars
  | 0, s => s
  | _ + 1, [] => []
  | n + 1, c :: cs =>
    match tryM (c :: cs) with
    | some (r, k) => r ++ scanRep tryM n (List.drop k (c :: cs))
    | none => c :: scanRep tryM n cs

/-- Does the matcher fire at any position of `s` (within `n` steps)? -/
def scanHit (tryM : Chars → Option (Chars × Nat)) : Nat → Chars → Bool
  | 0, _ => false
  | _ + 1, [] => false
  | n + 1, c :: cs => (tryM (c :: cs)).isSome || scanHit tryM n cs

/-- `content.replace(regex-with-g, r)` for a deterministic matcher. -/
def replaceAllG (tryM : Chars → Option (Chars × Nat)) (s : Chars) : Chars :=
  scanRep tryM s.length s

/-- `regex.test(content)`-like: the matcher fires somewhere in `s`. -/
def hitG (tryM : Chars → Option (Chars × Nat)) (s : Chars) : Bool :=
  scanHit tryM s.length s

theorem scanRep_of_no_hit (tryM : Chars → Option (Chars × Nat)) (n : Nat) (s : Chars)
    (h : scanHit tryM n s = false) : scanRep tryM n s = s := by
  induction n generalizing s with
  | zero => rfl
  | succ n ih =>
    cases s with
    | nil => rfl
    | cons c cs =>
      simp only [scanHit, Bool.or_eq_false_iff] at h
      have hnone : tryM (c :: cs) = none := Option.not_isSome_iff_eq_none.mp (by simp [h.1])
      simp only [scanRep, hnone]
      rw [ih cs h.2]

theorem scanHit_of_containsS (tryM : Chars → Option (Chars × Nat)) (L : Chars)
    (hL : L ≠ []) (hlit : ∀ u : Chars, (tryM (L ++ u)).isSome = true)
    (n : Nat) (s : Chars) (hc : containsS s L = true) (hn : s.length ≤ n) :
    scanHit tryM n s = true := by
  induction s generalizing n with
  | nil =>
    exfalso
    cases L with
    | nil => exact hL rfl
    | cons a as => simp [containsS, hasPre] at hc
  | cons c cs ih =>
    cases n with
    | zero => simp at hn
    | succ n =>
      simp only [containsS, Bool.or_eq_true] at hc
      simp only [scanHit, Bool.or_eq_true]
      rcases hc with hpre | hrest
      · obtain ⟨t, ht⟩ := (hasPre_iff L (c :: cs)).mp hpre
        exact Or.inl (ht ▸ hlit t)
      · exact Or.inr (ih n hrest (by simpa using Nat.le_of_succ_le_succ hn))

theorem scanRep_contains_of_hit (tryM : Chars → Option (Chars × Nat)) (R : Chars)
    (hr : ∀ s r k, tryM s = some (r, k) → r = R)
    (n : Nat) (s : Chars) (h : scanHit tryM n s = true) :
    containsS (scanRep tryM n s) R = true := by
  induction n generalizing s with
  | zero => simp [scanHit] at h
  | succ n ih =>
    cases s with
    | nil => simp [scanHit] at h
    | cons c cs =>
      simp only [scanHit, Bool.or_eq_true] at h
      cases hm : tryM (c :: cs) with
      | some rk =>
        obtain ⟨r, k⟩ := rk
        have hrR : r = R := hr _ _ _ hm
        simp only [scanRep, hm, hrR]
        simpa using containsS_of_middle [] R (scanRep tryM n (List.drop k (c :: cs)))
      | none =>
        rcases h with hs | hrest
        · rw [hm] at hs; simp at hs
        · simp only [scanRep, hm]
          exact containsS_cons_of c _ R (ih cs hrest)

theorem scanRep_eq_or_contains (tryM : Chars → Option (Chars × Nat)) (R : Chars)
    (hr : ∀ s r k, tryM s = some (r, k) → r = R) (n : Nat) (s : Chars) :
    scanRep tryM n s = s ∨ containsS (scanRep tryM n s) R = true := by
  cases h : scanHit tryM n s with
  | false => exact Or.inl (scanRep_of_no_hit tryM n s h)
  | true => exact Or.inr (scanRep_contains_of_hit tryM R hr n s h)

theorem scanRep_length_le (tryM : Chars → Option (Chars × Nat))
    (hb : ∀ s r k, tryM s = some (r, k) → r.length ≤ k ∧ k ≤ s.length)
    (n : Nat) (s : Chars) : (scanRep tryM n s).length ≤ s.length := by
  induction n generalizing s with
  | zero => simp [scanRep]
  | succ n ih =>
    cases s with
    | nil => simp [scanRep]
    | cons c cs =>
      cases hm : tryM (c :: cs) with
      | some rk =>
        obtain ⟨r, k⟩ := rk
        obtain ⟨h1, h2⟩ := hb _ _ _ hm
        simp only [scanRep, hm, List.length_append]
        calc r.length + (scanRep tryM n (List.drop k (c :: cs))).length
            ≤ r.length + (List.drop k (c :: cs)).length :=
              Nat.add_le_add_left (ih _) _
          _ = r.length + ((c :: cs).length - k) := by rw [List.length_drop]
          _ ≤ k + ((c :: cs).length - k) := Nat.add_le_add_right h1 _
          _ = (c :: cs).length := Nat.add_sub_cancel' h2
      | none =>
        simp only [scanRep, hm, List.length_cons]
        exact Nat.succ_le_succ (ih cs)

theorem scanRep_length_lt (tryM : Chars → Option (Chars × Nat))
    (hb : ∀ s r k, tryM s = some (r, k) → r.length < k ∧ k ≤ s.length)
    (n : Nat) (s : Chars) (h : scanHit tryM n s = true) :
    (scanRep tryM n s).length < s.length := by
  induction n generalizing s with
  | zero => simp [scanHit] at h
  | succ n ih =>
    cases s with
    | nil => simp [scanHit] at h
    | cons c cs =>
      simp only [scanHit, Bool.or_eq_true] at h
      cases hm : tryM (c :: cs) with
      | some rk =>
        obtain ⟨r, k⟩ := rk
        obtain ⟨h1, h2⟩ := hb _ _ _ hm
        have hle : ∀ s' r' k', tryM s' = some (r', k') → r'.length ≤ k' ∧ k' ≤ s'.length :=
          fun s' r' k' hm' => ⟨Nat.le_of_lt (hb s' r' k' hm').1, (hb s' r' k' hm').2⟩
        simp only [scanRep, hm, List.length_append]
        calc r.length + (scanRep tryM n (List.drop k (c :: cs))).length
            ≤ r.length + (List.drop k (c :: cs)).length :=
              Nat.add_le_add_left (scanRep_length_le tryM hle n _) _
          _ = r.length + ((c :: cs).length - k) := by rw [List.length_drop]
          _ < k + ((c :: cs).length - k) := Nat.add_lt_add_right h1 _
          _ = (c :: cs).length := Nat.add_sub_cancel' h2
      | none =>
        rcases h with hs | hrest
        · rw [hm] at hs; simp at hs
        · simp only [scanRep, hm, List.length_cons]
          exact Nat.succ_lt_succ (ih cs hrest)

/- ### Occurrence bookkeeping: substrings across appends and rewrites

The fixer pipelines several independent rewrites over the same content
(MySQL images, repo-line insertion, apt-get options, composer pin), and
the guards of later rules read the output of earlier ones.  To relate a
guard on the rewritten content to the same guard on the input we track
how occurrences of a fixed literal `P` interact with each match span and
replacement: when neither can contain `P` nor overlap an occurrence of
`P` across its boundaries, the rewrite neither creates nor destroys
occurrences. -/

/-- `p` is a suffix of `s`. -/
def hasSuf (p s : Chars) : Bool := hasPre p.reverse s.reverse

theorem hasSuf_iff (p s : Chars) : hasSuf p s = true ↔ ∃ t, s = t ++ p := by
  unfold hasSuf
  rw [hasPre_iff]
  constructor
  · rintro ⟨u, hu⟩
    refine ⟨u.reverse, ?_⟩
    have h2 := congrArg List.reverse hu
    simpa using h2
  · rintro ⟨t, rfl⟩
    exact ⟨t.reverse, by simp⟩

theorem containsS_length_le (s p : Chars) (h : containsS s p = true) :
    p.length ≤ s.length := by
  obtain ⟨a, b, rfl⟩ := (containsS_iff s p).mp h
  simp only [List.length_append]
  omega

theorem hasPre_take (q s : Chars) (m : Nat) (h : hasPre q s = true) :
    hasPre (q.take m) (s.take m) = true := by
  induction q generalizing s m with
  | nil => simp [hasPre, List.take_nil]
  | cons a qs ih =>
    cases s with
    | nil => simp [hasPre] at h
    | cons c cs =>
      simp only [hasPre, Bool.and_eq_true, beq_iff_eq] at h
      cases m with
      | zero => simp [hasPre]
      | succ m =>
        simp only [List.take_succ_cons, hasPre, Bool.and_eq_true, beq_iff_eq]
        exact ⟨h.1, ih cs m h.2⟩

theorem hasPre_append_elim (q a b : Chars) (h : hasPre q (a ++ b) = true) :
    hasPre (q.take a.length) a = true := by
  have h2 := hasPre_take q (a ++ b) a.length h
  rwa [List.take_left] at h2

/-- An occurrence of `p` in `a ++ b` lies in `a`, lies in `b`, or
straddles the boundary: a nonempty proper prefix `p.take i` ends `a` and
the matching tail `p.drop i` starts `b`. -/
theorem containsS_append_iff (a b p : Chars) :
    containsS (a ++ b) p = true ↔
      containsS a p = true ∨ containsS b p = true ∨
      ∃ i, 0 < i ∧ i < p.length ∧ hasSuf (p.take i) a = true ∧
        hasPre (p.drop i) b = true := by
  constructor
  · intro h
    obtain ⟨x, y, hxy⟩ := (containsS_iff _ _).mp h
    rw [List.append_assoc] at hxy
    rcases List.append_eq_append_iff.mp hxy with ⟨t, _, hb⟩ | ⟨t, ha, hd⟩
    · exact Or.inr (Or.inl ((containsS_iff _ _).mpr
        ⟨t, y, by rw [hb, List.append_assoc]⟩))
    · rcases List.append_eq_append_iff.mp hd with ⟨u, ht, _⟩ | ⟨u, hp, hb2⟩
      · refine Or.inl ((containsS_iff _ _).mpr ⟨x, u, ?_⟩)
        rw [ha, ht, List.append_assoc]
      · cases t with
        | nil =>
          refine Or.inr (Or.inl ((containsS_iff _ _).mpr ⟨[], y, ?_⟩))
          simp only [List.nil_append] at hp
          rw [hb2, ← hp]
          rfl
        | cons t0 ts =>
          cases u with
          | nil =>
            refine Or.inl ((containsS_iff _ _).mpr ⟨x, [], ?_⟩)
            rw [List.append_nil] at hp
            rw [ha, ← hp, List.append_nil]
          | cons u0 us =>
            refine Or.inr (Or.inr ⟨(t0 :: ts).length, by simp, ?_, ?_, ?_⟩)
            · rw [hp, List.length_append]
              simp
            · rw [hp, List.take_left]
              exact (hasSuf_iff _ _).mpr ⟨x, ha⟩
            · rw [hp, List.drop_left]
              exact (hasPre_iff _ _).mpr ⟨y, hb2⟩
  · rintro (h | h | ⟨i, _, _, hsuf, hpre⟩)
    · obtain ⟨x, y, rfl⟩ := (containsS_iff _ _).mp h
      exact (containsS_iff _ _).mpr ⟨x, y ++ b, by simp⟩
    · exact containsS_append_left a _ _ h
    · obtain ⟨t, rfl⟩ := (hasSuf_iff _ _).mp hsuf
      obtain ⟨u, rfl⟩ := (hasPre_iff _ _).mp hpre
      refine (containsS_iff _ _).mpr ⟨t, u, ?_⟩
      have hs : List.take i p ++ List.drop i p = p := List.take_append_drop i p
      conv_rhs => rw [← hs]
      simp only [List.append_assoc]

/-- The side conditions making one rewrite step invisible to occurrences
of `P`: the consumed span `A` and the replacement `R` neither contain `P`,
nor end with a nonempty proper prefix of `P`, nor start with (a prefix
of) any tail of `P`. -/
def spanOkB (P A R : Chars) : Bool :=
  ! containsS A P && ! containsS R P &&
  (List.range P.length).all (fun i =>
    (decide (i = 0) || (! hasSuf (P.take i) A && ! hasSuf (P.take i) R)) &&
    ! hasPre ((P.drop i).take A.length) A &&
    ! hasPre ((P.drop i).take R.length) R)

theorem spanOkB_elim (P A R : Chars) (h : spanOkB P A R = true) :
    containsS A P = false ∧ containsS R P = false ∧
    (∀ i, 0 < i → i < P.length →
      hasSuf (P.take i) A = false ∧ hasSuf (P.take i) R = false) ∧
    (∀ i, i < P.length →
      hasPre ((P.drop i).take A.length) A = false ∧
      hasPre ((P.drop i).take R.length) R = false) := by
  simp only [spanOkB, Bool.and_eq_true] at h
  obtain ⟨⟨h1, h2⟩, h3⟩ := h
  rw [List.all_eq_true] at h3
  refine ⟨by simpa using h1, by simpa using h2, ?_, ?_⟩
  · intro i hi0 hil
    have hx := h3 i (List.mem_range.mpr hil)
    simp only [Bool.and_eq_true, Bool.or_eq_true, decide_eq_true_eq,
      Bool.not_eq_true'] at hx
    rcases hx.1.1 with h0 | hs
    · omega
    · exact hs
  · intro i hil
    have hx := h3 i (List.mem_range.mpr hil)
    simp only [Bool.and_eq_true, Bool.or_eq_true, decide_eq_true_eq,
      Bool.not_eq_true'] at hx
    exact ⟨hx.1.2, hx.2⟩

/-- A `g`-replacement all of whose match spans and replacements satisfy
`spanOkB` for `P` neither creates nor destroys occurrences of `P`, and
leaves every `hasPre (P.drop i) ·` view of the string unchanged. -/
theorem scanRep_contains_eq (tryM : Chars → Option (Chars × Nat)) (P : Chars)
    (hok : ∀ s r k, tryM s = some (r, k) →
      1 ≤ k ∧ k ≤ s.length ∧ spanOkB P (s.take k) r = true) :
    ∀ n s, s.length ≤ n →
      (∀ i, hasPre (P.drop i) (scanRep tryM n s) = hasPre (P.drop i) s) ∧
      containsS (scanRep tryM n s) P = containsS s P := by
  intro n
  induction n with
  | zero =>
    intro s hs
    have hnil : s = [] := List.length_eq_zero.mp (Nat.le_zero.mp hs)
    subst hnil
    exact ⟨fun _ => rfl, rfl⟩
  | succ n ih =>
    intro s hs
    cases s with
    | nil => exact ⟨fun _ => rfl, rfl⟩
    | cons c cs =>
      cases hm : tryM (c :: cs) with
      | some rk =>
        obtain ⟨r, k⟩ := rk
        obtain ⟨hk1, hk2, hko⟩ := hok _ _ _ hm
        obtain ⟨hAc, hRc, hstr, hpre⟩ := spanOkB_elim P _ r hko
        have hsplit : (c :: cs) = (c :: cs).take k ++ (c :: cs).drop k :=
          (List.take_append_drop k (c :: cs)).symm
        have hlen : ((c :: cs).drop k).length ≤ n := by
          rw [List.length_drop]
          simp only [List.length_cons] at hs ⊢
          omega
        obtain ⟨ihpre, ihcon⟩ := ih ((c :: cs).drop k) hlen
        refine ⟨?_, ?_⟩
        · intro i
          simp only [scanRep, hm]
          by_cases hi : i < P.length
          · have hrhs : hasPre (P.drop i) (c :: cs) = false := by
              cases h2 : hasPre (P.drop i) (c :: cs) with
              | false => rfl
              | true =>
                exfalso
                rw [hsplit] at h2
                have h3 := hasPre_append_elim _ _ _ h2
                rw [(hpre i hi).1] at h3
                exact absurd h3 (by simp)
            have hlhs : hasPre (P.drop i) (r ++ scanRep tryM n ((c :: cs).drop k))
                = false := by
              cases h2 : hasPre (P.drop i) (r ++ scanRep tryM n ((c :: cs).drop k)) with
              | false => rfl
              | true =>
                exfalso
                have h3 := hasPre_append_elim _ _ _ h2
                rw [(hpre i hi).2] at h3
                exact absurd h3 (by simp)
            rw [hrhs, hlhs]
          · have hd : P.drop i = [] := List.drop_eq_nil_of_le (by omega)
            rw [hd]
            simp [hasPre]
        · simp only [scanRep, hm]
          cases hrest : containsS ((c :: cs).drop k) P with
          | true =>
            have e1 : containsS (c :: cs) P = true := by
              rw [hsplit]
              exact containsS_append_left _ _ _ hrest
            have e2 : containsS (r ++ scanRep tryM n ((c :: cs).drop k)) P = true :=
              containsS_append_left _ _ _ (by rw [ihcon]; exact hrest)
            rw [e1, e2]
          | false =>
            have e1 : containsS (c :: cs) P = false := by
              cases h2 : containsS (c :: cs) P with
              | false => rfl
              | true =>
                exfalso
                rw [hsplit] at h2
                rcases (containsS_append_iff _ _ _).mp h2 with
                  hA | hB | ⟨i, hi0, hil, hsufA, _⟩
                · rw [hAc] at hA; exact absurd hA (by simp)
                · rw [hrest] at hB; exact absurd hB (by simp)
                · rw [(hstr i hi0 hil).1] at hsufA; exact absurd hsufA (by simp)
            have e2 : containsS (r ++ scanRep tryM n ((c :: cs).drop k)) P = false := by
              cases h2 : containsS (r ++ scanRep tryM n ((c :: cs).drop k)) P with
              | false => rfl
              | true =>
                exfalso
                rcases (containsS_append_iff _ _ _).mp h2 with
                  hR | hB | ⟨i, hi0, hil, hsufR, _⟩
                · rw [hRc] at hR; exact absurd hR (by simp)
                · rw [ihcon, hrest] at hB; exact absurd hB (by simp)
                · rw [(hstr i hi0 hil).2] at hsufR; exact absurd hsufR (by simp)
            rw [e1, e2]
      | none =>
        have hlen : cs.length ≤ n := by
          simp only [List.length_cons] at hs
          omega
        obtain ⟨ihpre, ihcon⟩ := ih cs hlen
        have htails : ∀ i, hasPre (P.drop i) (c :: scanRep tryM n cs)
            = hasPre (P.drop i) (c :: cs) := by
          intro i
          by_cases hi : i < P.length
          · rw [List.drop_eq_getElem_cons hi]
            simp only [hasPre]
            rw [ihpre (i + 1)]
          · have hd : P.drop i = [] := List.drop_eq_nil_of_le (by omega)
            rw [hd]
            simp [hasPre]
        refine ⟨fun i => by simp only [scanRep, hm]; exact htails i, ?_⟩
        simp only [scanRep, hm, containsS]
        have h0 : hasPre P (c :: scanRep tryM n cs) = hasPre P (c :: cs) := by
          have h1 := htails 0
          simpa using h1
        rw [h0, ihcon]

/-- `scanRep_contains_eq` at full fuel. -/
theorem replaceAllG_contains_eq (tryM : Chars → Option (Chars × Nat)) (P : Chars)
    (hok : ∀ s r k, tryM s = some (r, k) →
      1 ≤ k ∧ k ≤ s.length ∧ spanOkB P (s.take k) r = true) (s : Chars) :
    containsS (replaceAllG tryM s) P = containsS s P :=
  (scanRep_contains_eq tryM P hok s.length s (Nat.le_refl _)).2

/-- A scan step firing only on strings with prefix `L` can only hit
strings containing `L`. -/
theorem scanHit_imp_contains (tryM : Chars → Option (Chars × Nat)) (L : Chars)
    (hfire : ∀ s, (tryM s).isSome = true → hasPre L s = true)
    (n : Nat) (s : Chars) (h : scanHit tryM n s = true) : containsS s L = true := by
  induction n generalizing s with
  | zero => simp [scanHit] at h
  | succ n ih =>
    cases s with
    | nil => simp [scanHit] at h
    | cons c cs =>
      simp only [scanHit, Bool.or_eq_true] at h
      rcases h with hf | hrest
      · have h1 := hfire _ hf
        simp [containsS, h1]
      · exact containsS_cons_of _ _ _ (ih cs hrest)

/-- `containsS` is preserved by mapping a function over both strings
(JS `toLowerCase` of an occurrence is an occurrence in the lowered
string). -/
theorem containsS_map (f : Char → Char) (s p : Chars) (h : containsS s p = true) :
    containsS (s.map f) (p.map f) = true := by
  obtain ⟨a, b, rfl⟩ := (containsS_iff _ _).mp h
  exact (containsS_iff _ _).mpr ⟨a.map f, b.map f, by simp⟩

/- ### `split('\n')` / `join('\n')` bookkeeping -/

theorem splitNl_ne_nil (s : Chars) : splitNl s ≠ [] := by
  cases s with
  | nil => simp [splitNl]
  | cons c cs =>
    by_cases h : (c == '\n') = true
    · simp [splitNl, h]
    · simp only [splitNl, h, Bool.false_eq_true, if_false]
      cases hs : splitNl cs <;> simp

theorem joinNl_cons_cons (l m : Chars) (ms : List Chars) :
    joinNl (l :: m :: ms) = l ++ '\n' :: joinNl (m :: ms) := by
  simp [joinNl, List.intersperse]

/-- `split('\n')` then `join('\n')` is the identity (fixer.ts lines 149,
171). -/
theorem joinNl_splitNl (s : Chars) : joinNl (splitNl s) = s := by
  induction s with
  | nil => rfl
  | cons c cs ih =>
    by_cases h : (c == '\n') = true
    · have hc : c = '\n' := by simpa using h
      subst hc
      simp only [splitNl, beq_self_eq_true, if_true]
      obtain ⟨l, ls, hls⟩ : ∃ l ls, splitNl cs = l :: ls := by
        cases hx : splitNl cs with
        | nil => exact absurd hx (splitNl_ne_nil cs)
        | cons l ls => exact ⟨l, ls, rfl⟩
      rw [hls, joinNl_cons_cons, ← hls, ih]
      simp
    · simp only [splitNl, h, Bool.false_eq_true, if_false]
      cases hx : splitNl cs with
      | nil => exact absurd hx (splitNl_ne_nil cs)
      | cons l ls =>
        rw [hx] at ih
        cases ls with
        | nil =>
          simp only [joinNl, List.intersperse, List.flatten] at ih ⊢
          simp only [List.append_nil] at ih ⊢
          rw [ih]
        | cons m ms =>
          rw [joinNl_cons_cons]
          rw [joinNl_cons_cons] at ih
          rw [← ih]
          simp

/-- A newline-free literal occurs in `join('\n') lines` iff it occurs in
one of the lines. -/
theorem containsS_joinNl (ls : List Chars) (P : Chars) (hP : P ≠ [])
    (hnl : ∀ ch ∈ P, ch ≠ '\n') :
    containsS (joinNl ls) P = true ↔ ∃ l ∈ ls, containsS l P = true := by
  induction ls with
  | nil =>
    have hj : joinNl ([] : List Chars) = [] := rfl
    rw [hj]
    constructor
    · intro h
      exfalso
      have hle := containsS_length_le [] P h
      cases P with
      | nil => exact hP rfl
      | cons a as => simp at hle
    · rintro ⟨l, hl, _⟩
      exact absurd hl (List.not_mem_nil l)
  | cons l ls ih =>
    cases ls with
    | nil =>
      have hj : joinNl [l] = l := by simp [joinNl, List.intersperse]
      rw [hj]
      simp
    | cons m ms =>
      rw [joinNl_cons_cons]
      constructor
      · intro h
        rcases (containsS_append_iff _ _ _).mp h with hA | hB | ⟨i, hi0, hil, _, hpre⟩
        · exact ⟨l, List.mem_cons_self _ _, hA⟩
        · cases hh : hasPre P ('\n' :: joinNl (m :: ms)) with
          | true =>
            exfalso
            cases P with
            | nil => exact hP rfl
            | cons p0 pt =>
              simp only [hasPre, Bool.and_eq_true, beq_iff_eq] at hh
              exact (hnl p0 (List.mem_cons_self _ _)) hh.1
          | false =>
            have hB2 : containsS (joinNl (m :: ms)) P = true := by
              simp only [containsS, hh, Bool.false_or] at hB
              exact hB
            obtain ⟨x, hx, hcx⟩ := ih.mp hB2
            exact ⟨x, List.mem_cons_of_mem _ hx, hcx⟩
        · exfalso
          cases hd : P.drop i with
          | nil =>
            have hlen := congrArg List.length hd
            simp only [List.length_drop, List.length_nil] at hlen
            omega
          | cons q0 qt =>
            rw [hd] at hpre
            simp only [hasPre, Bool.and_eq_true, beq_iff_eq] at hpre
            have hq0 : q0 ∈ P :=
              List.mem_of_mem_drop (by rw [hd]; exact List.mem_cons_self _ _)
            exact (hnl q0 hq0) hpre.1
      · rintro ⟨x, hx, hcx⟩
        rcases List.mem_cons.mp hx with rfl | hx2
        · obtain ⟨a, b, hab⟩ := (containsS_iff _ _).mp hcx
          exact (containsS_iff _ _).mpr
            ⟨a, b ++ '\n' :: joinNl (m :: ms), by rw [hab]; simp⟩
        · have h2 : containsS (joinNl (m :: ms)) P = true := ih.mpr ⟨x, hx2, hcx⟩
          exact containsS_append_left _ _ _ (containsS_cons_of _ _ _ h2)

/- ### The compatibility patcher (src/lib/fixer.ts) -/

/-- fixer.ts lines 25-30: markers of Buster-based images. -/
def BUSTER_BASED_IMAGES : List Chars :=
  [lit "python:2.7", lit "python:2.", lit "debian:buster", lit "slim-buster", lit ":buster",
   lit "httpd:2.4.49", lit "httpd:2.4.50", lit "httpd:2.4.51",
   lit "php:7.1", lit "php:7.2", lit "php:7.3",
   lit "haproxy:2.0", lit "haproxy:2.1"]

/-- fixer.ts lines 33-39: broken image → replacement, in insertion order
(`Object.entries` iterates string keys in insertion order). -/
def BROKEN_MYSQL_IMAGES : List (Chars × Chars) :=
  [(lit "mysql:5.7.15", lit "mysql:5.7"),
   (lit "mysql:5.7.14", lit "mysql:5.7"),
   (lit "mysql:5.7.13", lit "mysql:5.7"),
   (lit "mysql:5.7.12", lit "mysql:5.7"),
   (lit "mysql:5.6", lit "mysql:5.7")]

/-- `oldImage.replace('.', '\\.')` (fixer.ts line 131): JS `replace` with a
string pattern escapes only the FIRST dot; the rest stay `.` wildcards.
`some c` is a literal (case-insensitive) character, `none` the wildcard. -/
def escFirstDot : Bool → Chars → List (Option Char)
  | _, [] => []
  | false, c :: cs =>
    if c == '.' then some '.' :: escFirstDot true cs else some c :: escFirstDot false cs
  | true, c :: cs =>
    if c == '.' then none :: escFirstDot true cs else some c :: escFirstDot true cs

/-- Match a tail of case-insensitive literals and `.` wildcards (JS `.`
without the `s` flag does not match line terminators).  Returns the number
of characters consumed. -/
def matchTailCI : List (Option Char) → Chars → Option Nat
  | [], _ => some 0
  | _ :: _, [] => none
  | some p :: ps, c :: cs =>
    if lowEq p c then (matchTailCI ps cs).map (· + 1) else none
  | none :: ps, c :: cs =>
    if c == '\n' || c == '\r' then none else (matchTailCI ps cs).map (· + 1)

/-- Matcher at one position for `new RegExp('FROM\\s+' + escapedOld, 'gi')`
replaced by `FROM ${newImage}` (fixer.ts lines 130-133).  `\s+` is the
maximal whitespace run: the character after it must start the (escaped)
image reference `mysql...`, whose first character `m` is not whitespace,
so maximal munch is the unique match. -/
def tryMysql (pat : List (Option Char)) (newI : Chars) (s : Chars) : Option (Chars × Nat) :=
  if hasPreCI (lit "FROM") s then
    let p := spanWs (s.drop 4)
    if p.1.length == 0 then none
    else
      match matchTailCI pat p.2 with
      | some m => some (lit "FROM " ++ newI, 4 + p.1.length + m)
      | none => none
  else none

/-- Matcher at one position for `/composer:latest/gi` → `composer:2.5`
(fixer.ts line 182). -/
def tryComposer (s : Chars) : Option (Chars × Nat) :=
  if hasPreCI (lit "composer:latest") s then some (lit "composer:2.5", 15) else none

/-- Matcher at one position for `/apt-get update(?!\s+-o)/g` →
`apt-get update -o Acquire::Check-Valid-Until=false` (fixer.ts lines
174-177).  The negative lookahead succeeds iff no whitespace run (≥ 1,
necessarily the whole maximal run since `-` is not whitespace) followed by
`-o` starts right after the literal. -/
def tryApt (s : Chars) : Option (Chars × Nat) :=
  if hasPre (lit "apt-get update") s then
    let p := spanWs (s.drop 14)
    if decide (1 ≤ p.1.length) && hasPre (lit "-o") p.2 then none
    else some (lit "apt-get update -o Acquire::Check-Valid-Until=false", 14)
  else none

/-- JS `["']?` quote characters. -/
def isQuote (c : Char) : Bool := c == '"' || c == '\''

/-- A match of `/(expose:\s*\n\s*-\s*)["']?(\d+):(\d+)["']?/`:
the replacement `$1$2`, the matched length, and the two digit groups. -/
structure ExposeM where
  repl : Chars
  len : Nat
  g2 : Chars
  g3 : Chars
deriving DecidableEq, Repr

/-- `["']?`: consumed count (0 or 1) and the rest. -/
def quoteOpt (s : Chars) : Nat × Chars :=
  match s with
  | c :: r => if isQuote c then (1, r) else (0, s)
  | [] => (0, [])

/-- The `(\d+):(\d+)["']?` tail of the expose pattern, at `s` (right after
the optional opening quote); `ws1`, `ws2`, `q1` are the spans already
consumed, carried to build the replacement and the matched length. -/
def exposeTail (ws1 ws2 : Chars) (q1 : Nat) (s : Chars) : Option ExposeM :=
  if (spanDigits s).1.length == 0 then none
  else
    match (spanDigits s).2 with
    | [] => none
    | c2 :: r4 =>
      if c2 == ':' then
        if (spanDigits r4).1.length == 0 then none
        else
          some { repl := lit "expose:" ++ ws1 ++ '-' :: ws2 ++ (spanDigits s).1,
                 len := 7 + ws1.length + 1 + ws2.length + q1 +
                        (spanDigits s).1.length + 1 + (spanDigits r4).1.length +
                        (quoteOpt (spanDigits r4).2).1,
                 g2 := (spanDigits s).1, g3 := (spanDigits r4).1 }
      else none

/-- Matcher at one position for the expose pattern (fixer.ts lines 99 and
203-206).  `\s*\n\s*` matches exactly a whitespace run containing at least
one newline, and the run is maximal because the following `-` is not
whitespace; the `\s*` after `-` is maximal for the same reason (a quote or
digit follows); `\d+` is maximal since backtracking would put a digit
where `:` is required; if an opening quote is present the digits must
follow it (the quote itself cannot start the `\d+`). -/
def tryExposeCaps (s : Chars) : Option ExposeM :=
  if hasPre (lit "expose:") s then
    if (spanWs (s.drop 7)).1.contains '\n' then
      match (spanWs (s.drop 7)).2 with
      | [] => none
      | c :: r2 =>
        if c == '-' then
          exposeTail (spanWs (s.drop 7)).1 (spanWs r2).1
            (quoteOpt (spanWs r2).2).1 (quoteOpt (spanWs r2).2).2
        else none
    else none
  else none

/-- The expose matcher, capture groups dropped (for the `g`-replacement). -/
def tryExpose (s : Chars) : Option (Chars × Nat) :=
  (tryExposeCaps s).map (fun m => (m.repl, m.len))

/-- First match of the (non-global) expose regex: the two digit groups
(fixer.ts line 99, `content.match(...)`). -/
def scanFirstExpose : Nat → Chars → Option (Chars × Chars)
  | 0, _ => none
  | _ + 1, [] => none
  | n + 1, c :: cs =>
    match tryExposeCaps (c :: cs) with
    | some m => some (m.g2, m.g3)
    | none => scanFirstExpose n cs

/-- The FixItem `type` field (fixer.ts line 12). -/
inductive FixType where
  | mysql
  | compose
  | buster
  | composer
deriving DecidableEq, Repr

/-- fixer.ts lines 11-17. -/
structure FixItem where
  type : FixType
  file : Chars
  description : Chars
  before : Option Chars := none
  after : Option Chars := none
deriving DecidableEq, Repr

/-- The MySQL loop of `fixBenchmark` (fixer.ts lines 128-140): entries in
order; when the file contains `FROM ${oldImage}` literally, run the
`gi`-replacement and record one FixItem. -/
def mysqlFix (f : Chars) : List (Chars × Chars) → Chars → Chars × List FixItem
  | [], c => (c, [])
  | (oldI, newI) :: es, c =>
    if containsS c (lit "FROM " ++ oldI) then
      let c' := replaceAllG (tryMysql (escFirstDot false oldI) newI) c
      let rest := mysqlFix f es c'
      (rest.1, { type := .mysql, file := f,
                 description := lit "Fixed: " ++ oldI ++ lit " → " ++ newI } :: rest.2)
    else mysqlFix f es c

/-- `usesBuster` (fixer.ts lines 143-145). -/
def usesBuster (c : Chars) : Bool :=
  BUSTER_BASED_IMAGES.any (fun img => containsS (toLowerC c) (toLowerC img))

/-- The five lines inserted before the first `apt-get update` line
(fixer.ts lines 155-159). -/
def repoFixLines : List Chars :=
  [[], lit "# Fix for archived Debian Buster repos (EOL)",
   lit "RUN echo \"deb http://archive.debian.org/debian buster main\" > /etc/apt/sources.list && \\",
   lit "    echo \"deb http://archive.debian.org/debian-security buster/updates main\" >> /etc/apt/sources.list",
   []]

/-- The line loop of the Buster fix (fixer.ts lines 149-169): insert the
repo-fix lines before the first line containing `apt-get update`
case-insensitively; report whether an insertion happened. -/
def insertRepoFix : List Chars → List Chars × Bool
  | [] => ([], false)
  | l :: ls =>
    if containsS (toLowerC l) (lit "apt-get update") then
      (repoFixLines ++ l :: ls, true)
    else
      let r := insertRepoFix ls
      (l :: r.1, r.2)

/-- The Buster branch of `fixBenchmark` (fixer.ts lines 143-178). -/
def busterFix (f : Chars) (c : Chars) : Chars × List FixItem :=
  if usesBuster c && ! containsS c (lit "archive.debian.org") then
    let r := insertRepoFix (splitNl c)
    let c2 := replaceAllG tryApt (joinNl r.1)
    (c2,
     if r.2 then
       [{ type := .buster, file := f,
          description := lit "Added archive.debian.org repos for Debian Buster" }]
     else [])
  else (c, [])

/-- The composer branch of `fixBenchmark` (fixer.ts lines 181-188). -/
def composerFix (f : Chars) (c : Chars) : Chars × List FixItem :=
  if containsS c (lit "composer:latest") then
    (replaceAllG tryComposer c,
     [{ type := .composer, file := f,
        description := lit "Fixed: composer:latest → composer:2.5" }])
  else (c, [])

/-- `fixBenchmark` on one Dockerfile content (fixer.ts lines 122-194):
MySQL entries, then the Buster branch, then the composer branch, items in
push order; the new content is written back iff it changed. -/
def fixDockerfile (f : Chars) (c : Chars) : Chars × List FixItem :=
  let m := mysqlFix f BROKEN_MYSQL_IMAGES c
  let b := busterFix f m.1
  let p := composerFix f b.1
  (p.1, m.2 ++ b.2 ++ p.2)

/-- `fixBenchmark` on the compose file (fixer.ts lines 197-218): one global
replacement; a FixItem iff the content changed. -/
def composeFix (c : Chars) : Chars × List FixItem :=
  let c' := replaceAllG tryExpose c
  if c' = c then (c, [])
  else (c', [{ type := .compose, file := lit "docker-compose.yml",
               description := lit "Fixed: expose port mapping syntax" }])

/-- A benchmark unit's patchable files: the recursively discovered
Dockerfiles as (relative path, content), and the optional
`docker-compose.yml` content (fixer.ts lines 120, 197-199: a missing
compose file is the `catch` branch). -/
structure Benchmark where
  dockerfiles : List (Chars × Chars)
  compose : Option Chars
deriving DecidableEq, Repr

/-- `fixBenchmark` (fixer.ts lines 116-221). -/
def fixBenchmark (b : Benchmark) : Benchmark × List FixItem :=
  let ds := b.dockerfiles.map (fun fc => (fc.1, fixDockerfile fc.1 fc.2))
  let cpart : Option Chars × List FixItem :=
    match b.compose with
    | none => (none, [])
    | some cc => let r := composeFix cc; (some r.1, r.2)
  ({ dockerfiles := ds.map (fun x => (x.1, x.2.1)), compose := cpart.1 },
   (ds.map (fun x => x.2.2)).flatten ++ cpart.2)

/-- The MySQL loop of `analyzeBenchmark` (fixer.ts lines 52-61): one item
per entry whose `FROM ${oldImage}` occurs in the (unmodified) content. -/
def mysqlAnalyze (f : Chars) (c : Chars) : List FixItem :=
  (BROKEN_MYSQL_IMAGES.filter (fun e => containsS c (lit "FROM " ++ e.1))).map
    (fun e =>
      { type := .mysql, file := f,
        description := lit "MySQL image " ++ e.1 ++ lit " is corrupt on Docker Hub",
        before := some (lit "FROM " ++ e.1), after := some (lit "FROM " ++ e.2) })

/-- The Buster branch of `analyzeBenchmark` (fixer.ts lines 64-79): note
the case-SENSITIVE `content.includes('apt-get update')` gate. -/
def busterAnalyze (f : Chars) (c : Chars) : List FixItem :=
  if usesBuster c && ! containsS c (lit "archive.debian.org") then
    if containsS c (lit "apt-get update") then
      [{ type := .buster, file := f,
         description := lit "Uses Debian Buster (EOL) - needs archive.debian.org repos",
         before := some (lit "apt-get update"),
         after := some (lit "apt-get update -o Acquire::Check-Valid-Until=false (with archived repos)") }]
    else []
  else []

/-- The composer branch of `analyzeBenchmark` (fixer.ts lines 82-90). -/
def composerAnalyze (f : Chars) (c : Chars) : List FixItem :=
  if containsS c (lit "composer:latest") then
    [{ type := .composer, file := f,
       description := lit "Uses composer:latest which blocks vulnerable packages",
       before := some (lit "composer:latest"),
       after := some (lit "composer:2.5 (no strict security blocking)") }]
  else []

/-- `analyzeBenchmark` on one Dockerfile content (fixer.ts lines 47-91). -/
def analyzeDockerfile (f : Chars) (c : Chars) : List FixItem :=
  mysqlAnalyze f c ++ busterAnalyze f c ++ composerAnalyze f c

/-- The compose check of `analyzeBenchmark` (fixer.ts lines 94-111): the
first (non-global) match of the expose regex yields one item. -/
def composeAnalyze (c : Chars) : List FixItem :=
  match scanFirstExpose c.length c with
  | some g =>
    [{ type := .compose, file := lit "docker-compose.yml",
       description := lit "Invalid expose syntax (should not have port mapping)",
       before := some (lit "expose: - " ++ g.1 ++ ':' :: g.2),
       after := some (lit "expose: - " ++ g.1) }]
  | none => []

/-- `analyzeBenchmark` (fixer.ts lines 41-114): detection only, no writes. -/
def analyzeBenchmark (b : Benchmark) : List FixItem :=
  (b.dockerfiles.map (fun fc => analyzeDockerfile fc.1 fc.2)).flatten ++
    (match b.compose with
     | none => []
     | some cc => composeAnalyze cc)

/- ### Fleet state aggregation (src/lib/docker.ts) -/

/-- The `status` union of `BenchmarkInfo` (docker.ts line 30).  The source
strings `'error'` and `'partial'` are the constructors `errorSt` and
`partialSt` (both words are reserved in Lean). -/
inductive Status where
  | stopped
  | running
  | building
  | errorSt
  | partialSt
  | unknown
deriving DecidableEq, Repr

/-- One port binding as the daemon reports it: `PublicPort` is absent on
unpublished bindings. -/
structure RawPort where
  privatePort : Nat
  publicPort : Option Nat
deriving DecidableEq, Repr

/-- One entry of the shared `docker.listContainers({all: true})` result —
exactly the fields docker.ts reads.  `composeProject` is
`c.Labels?.['com.docker.compose.project']`. -/
structure RawContainer where
  id : Chars
  names : List Chars
  image : Chars
  statusText : Chars
  state : Chars
  ports : List RawPort
  composeProject : Option Chars
  created : Nat
deriving DecidableEq, Repr

/-- A normalized binding (docker.ts line 212): `public` is
`p.PublicPort || 0`.  `private`/`public` are reserved words in Lean, hence
`priv`/`pub`. -/
structure PortMapping where
  priv : Nat
  pub : Nat
deriving DecidableEq, Repr

/-- `ContainerInfo` (docker.ts lines 36-45). -/
structure ContainerInfo where
  id : Chars
  name : Chars
  image : Chars
  statusText : Chars
  state : Chars
  ports : List Chars
  portMappings : List PortMapping
  created : Nat
deriving DecidableEq, Repr

/-- `c.Names[0]?.replace('/', '') || ''` — JS `replace` with a string
pattern removes only the first `/`. -/
def removeFirstSlash : Chars → Chars
  | [] => []
  | c :: cs => if c == '/' then cs else c :: removeFirstSlash cs

/-- `` `${p.public}:${p.private}` `` (docker.ts line 219). -/
def portStr (m : PortMapping) : Chars := natChars m.pub ++ ':' :: natChars m.priv

/-- docker.ts lines 211-223: a `RawContainer` to the `ContainerInfo` the
unit exposes. -/
def toContainerInfo (c : RawContainer) : ContainerInfo :=
  let pm := c.ports.map (fun p => { priv := p.privatePort, pub := p.publicPort.getD 0 })
  { id := c.id.take 12,
    name := match c.names.head? with | some n => removeFirstSlash n | none => [],
    image := c.image,
    statusText := c.statusText,
    state := c.state,
    ports := (pm.filter (fun m => m.pub != 0)).map portStr,
    portMappings := pm,
    created := c.created }

/-- The container-to-unit matcher (docker.ts lines 206-209): compose
project label equality first, else unit-name substring of any name. -/
def matchesBenchmark (name : Chars) (c : RawContainer) : Bool :=
  c.composeProject == some (toLowerC name) ||
    c.names.any (fun n => containsS n (toLowerC name))

/-- Status derivation (docker.ts lines 226-234). -/
def deriveStatus (cs : List ContainerInfo) : Status :=
  if cs.length == 0 then .stopped
  else if cs.all (fun c => c.state == lit "running") then .running
  else if cs.any (fun c => c.state == lit "running") then .partialSt
  else .stopped

/-- Create-or-push on the `ports` record (docker.ts lines 240-241): a JS
object keyed by the container port; a fresh key is appended, an existing
key's list gets the value pushed. -/
def portsInsert : List (Nat × List Chars) → Nat → Chars → List (Nat × List Chars)
  | [], k, v => [(k, [v])]
  | (k', vs) :: r, k, v =>
    if k' == k then (k', vs ++ [v]) :: r else (k', vs) :: portsInsert r k v

/-- The inner `forEach` over one container's bindings (docker.ts 238-243):
only truthy (nonzero) public ports contribute. -/
def addContainerPorts (m : List (Nat × List Chars)) (c : ContainerInfo) :
    List (Nat × List Chars) :=
  c.portMappings.foldl
    (fun m p => if p.pub != 0 then portsInsert m p.priv (natChars p.pub) else m) m

/-- Port aggregation over the unit's containers (docker.ts lines 237-244). -/
def extractPorts (cs : List ContainerInfo) : List (Nat × List Chars) :=
  cs.foldl addContainerPorts []

/-- `info.ports[k]` (missing key reads as the empty list). -/
def portsLookup (m : List (Nat × List Chars)) (k : Nat) : List Chars :=
  match m.find? (fun e => e.1 == k) with
  | some e => e.2
  | none => []

/-- One entry of `docker.listImages()` — the field docker.ts reads. -/
structure ImageInfo where
  repoTags : Option (List Chars)
deriving DecidableEq, Repr

/-- docker.ts lines 247-249: some repo tag contains the unit name,
case-insensitively. -/
def hasImageFor (name : Chars) (imgs : List ImageInfo) : Bool :=
  imgs.any (fun img =>
    (img.repoTags.getD []).any (fun tag => containsS (toLowerC tag) (toLowerC name)))

/-- `parseInt(id.match(/XBEN-(\d+)/)?.[1] || '0')` (docker.ts 127-128):
digits of the first occurrence of `XBEN-` immediately followed by at
least one digit, anywhere in the name; `0` when there is none. -/
def benchKey : Chars → Nat
  | [] => 0
  | c :: cs =>
    if hasPre (lit "XBEN-") (c :: cs) then
      let d := spanDigits ((c :: cs).drop 5)
      if d.1.isEmpty then benchKey cs else digitsToNat d.1
    else benchKey cs

/-- `BenchmarkInfo` (docker.ts lines 17-34), the fields the model tracks.
`id` stays the directory name; `name` may be overwritten by the manifest. -/
structure BenchmarkInfo where
  id : Chars
  name : Chars
  level : Option Nat
  tags : Option (List Chars)
  description : Option Chars
  hasDockerCompose : Bool
  hasMakefile : Bool
  status : Status
  ports : List (Nat × List Chars)
  containers : List ContainerInfo
  hasImage : Bool
deriving DecidableEq, Repr

/-- Stable insertion keeping already-placed elements with strictly smaller
key in front; on equal keys the inserted element (earlier in the input)
goes first.  This is the unique output of a stable comparator sort, which
`Array.prototype.sort` is (ES2019), with `(a, b) => numA - numB`
(docker.ts lines 125-130). -/
def insSorted (x : BenchmarkInfo) : List BenchmarkInfo → List BenchmarkInfo
  | [] => [x]
  | y :: ys => if benchKey y.id < benchKey x.id then y :: insSorted x ys else x :: y :: ys

/-- The sort of docker.ts lines 125-130. -/
def sortBenchmarks : List BenchmarkInfo → List BenchmarkInfo
  | [] => []
  | x :: xs => insSorted x (sortBenchmarks xs)

/-- `deleteBenchmarkImages` (docker.ts lines 552-578): walk the full image
list; per image, the FIRST repo tag containing the unit name
case-insensitively (`RepoTags?.find`) marks it for a forced remove.  The
`Bool` paired with each image says whether the daemon removal succeeds: a
failure is logged and skipped (the `catch` at line 568), the walk
continues, and only successful removals' tags are collected. -/
def deleteBenchmarkImages (benchmarkId : Chars) :
    List (ImageInfo × Bool) → List Chars
  | [] => []
  | (img, ok) :: rest =>
    match (img.repoTags.getD []).find?
        (fun t => containsS (toLowerC t) (toLowerC benchmarkId)) with
    | some t => (if ok then [t] else []) ++ deleteBenchmarkImages benchmarkId rest
    | none => deleteBenchmarkImages benchmarkId rest

/- ### Manifest parsing (docker.ts lines 177-203) -/

/-- Maximal run of characters satisfying `p`, and the rest. -/
def spanP (p : Char → Bool) : Chars → Chars × Chars
  | [] => ([], [])
  | c :: cs => if p c then let r := spanP p cs; (c :: r.1, r.2) else ([], c :: cs)

/-- JS line terminators (`\n`, `\r`) — the characters `.` excludes, `$`
with `/m` precedes and `^` with `/m` follows (the Unicode separators
U+2028/U+2029, which never occur in the manifests, are not modelled). -/
def isLineTerm (c : Char) : Bool := c == '\n' || c == '\r'

/-- The capture of `\s*(.+)$` right after a matched `name:`: the greedy
`\s*` run may cross line terminators; `(.+)` then captures the maximal run
of non-terminator characters (which always ends at a position where `$`
holds).  When only whitespace remains, the greedy `\s*` backs off to the
last non-terminator whitespace character, which becomes the one-character
capture (everything after it is a line terminator, so `$` holds); when the
whole run is line terminators the candidate fails. -/
def nameCapture (rest : Chars) : Option Chars :=
  let w := spanWs rest
  match w.2 with
  | _ :: _ => some (w.2.takeWhile (fun c => ! isLineTerm c))
  | [] =>
    let j := (w.1.reverse.takeWhile isLineTerm).length
    if j < w.1.length then ((w.1.drop (w.1.length - j - 1)).head?).map (fun c => [c])
    else none

/-- Left-to-right scan for `/^name:\s*(.+)$/m` (docker.ts line 183): at
each line start (the start of the content, or right after a line
terminator) try `name:` followed by `nameCapture`; on failure resume at
the next position. -/
def findNameFrom : Bool → Chars → Option Chars
  | _, [] => none
  | atStart, c :: rest =>
    match (if atStart && hasPre (lit "name:") (c :: rest)
           then nameCapture ((c :: rest).drop 5) else none) with
    | some cap => some cap
    | none => findNameFrom (isLineTerm c) rest

def findName (c : Chars) : Option Chars := findNameFrom true c

/-- Left-to-right scan for `/^level:\s*(\d+)/m` with `parseInt`
(docker.ts lines 184, 191): at each line start try `level:`, then the
greedy `\s*` (which may cross line terminators) and at least one digit;
whitespace characters are never digits, so the greedy run cannot back
off and the candidate fails when the first non-whitespace character
after `level:` is not a digit. -/
def findLevelFrom : Bool → Chars → Option Nat
  | _, [] => none
  | atStart, c :: rest =>
    match (if atStart && hasPre (lit "level:") (c :: rest)
           then (let d := spanDigits (spanWs ((c :: rest).drop 6)).2
                 if d.1.isEmpty then none else some (digitsToNat d.1))
           else none) with
    | some v => some v
    | none => findLevelFrom (isLineTerm c) rest

def findLevel (c : Chars) : Option Nat := findLevelFrom true c

/-- The `(?:- .+\n?)+` block: consecutive lines `- x` with at least one
character after `- `. -/
def takeTagLines : List Chars → List Chars
  | [] => []
  | l :: ls =>
    if hasPre (lit "- ") l && decide (2 < l.length) then l :: takeTagLines ls else []

/-- After a `tags:` line whose remainder is all whitespace, `\s*\n` may
span further all-whitespace lines; the `(?:- .+\n?)+` group must then
start at a line beginning (the char right after the final matched `\n`). -/
def tagsAfter : List Chars → Option (List Chars)
  | [] => none
  | l :: ls =>
    if hasPre (lit "- ") l && decide (2 < l.length) then some (takeTagLines (l :: ls))
    else if l.all isWs then tagsAfter ls
    else none

/-- `/^tags:\s*\n((?:- .+\n?)+)/m` (docker.ts line 185), returning the
captured block as its lines (each starting with `- `). -/
def findTagsLines : List Chars → Option (List Chars)
  | [] => none
  | l :: ls =>
    match
      (if hasPre (lit "tags:") l && (l.drop 5).all isWs then tagsAfter ls else none)
    with
    | some r => some r
    | none => findTagsLines ls

/-- `findTagsLines` over the split content. -/
def findTags (c : Chars) : Option (List Chars) :=
  findTagsLines (splitNl c)

/-- `[^"'\n]` — the characters a description chunk may contain. -/
def isChunkChar (c : Char) : Bool := !(c == '"' || c == '\'' || c == '\n')

/-- The greedy `(?:\n\s+[^"'\n]+)*` inside the description capture
(docker.ts line 188).  Each iteration consumes a newline, a nonempty
whitespace run and a nonempty chunk.  When no chunk character follows the
maximal whitespace run, the greedy `\s+` backs off to just before the last
non-newline whitespace character of the run, which then forms a
one-character chunk (everything after it is a newline or a non-chunk
character, so the chunk stops there); the remaining newlines feed the next
iteration.  Returns (consumed, rest). -/
def descGroups : Nat → Chars → Chars × Chars
  | 0, s => ([], s)
  | fuel + 1, s =>
    match s with
    | '\n' :: r =>
      let w := spanWs r
      if w.1.isEmpty then ([], s)
      else
        let ch := spanP isChunkChar w.2
        if !ch.1.isEmpty then
          let rest := descGroups fuel ch.2
          ('\n' :: w.1 ++ ch.1 ++ rest.1, rest.2)
        else
          let j := (w.1.reverse.takeWhile (fun c => c == '\n')).length
          if decide (j + 2 ≤ w.1.length) then
            let i := w.1.length - j - 1
            let tl := (w.1.drop (i + 1)) ++ w.2
            let rest := descGroups fuel tl
            ('\n' :: w.1.take (i + 1) ++ rest.1, rest.2)
          else ([], s)
    | _ => ([], s)

/-- Try `content:\s*["']?([^"'\n]+(?:\n\s+[^"'\n]+)*)` at this position
(case-insensitive); returns the capture.  The backtracking order of the
engine is: longest `\s*`, with the optional quote consumed first; when no
chunk character follows, the `\s*` backs off to just before its last
non-newline character (which becomes a one-character chunk).  The
trailing `["']?` never affects the match or the capture. -/
def descContentAt (s : Chars) : Option Chars :=
  if hasPreCI (lit "content:") s then
    let w := spanWs (s.drop 8)
    let viaQuote : Option Chars :=
      match w.2 with
      | c :: r =>
        if isQuote c then
          let ch := spanP isChunkChar r
          if ch.1.isEmpty then none
          else some (ch.1 ++ (descGroups ch.2.length ch.2).1)
        else none
      | [] => none
    match viaQuote with
    | some cap => some cap
    | none =>
      let ch := spanP isChunkChar w.2
      if !ch.1.isEmpty then some (ch.1 ++ (descGroups ch.2.length ch.2).1)
      else
        let j := (w.1.reverse.takeWhile (fun c => c == '\n')).length
        if decide (j + 1 ≤ w.1.length) then
          let i := w.1.length - j - 1
          let tl := (w.1.drop (i + 1)) ++ w.2
          ((w.1.drop i).head?).map (fun x => x :: (descGroups tl.length tl).1)
        else none
  else none

/-- The lazy `[\s\S]*?` before `content:`: the first later position where
the content part matches. -/
def descSearch : Nat → Chars → Option Chars
  | 0, _ => none
  | _ + 1, [] => none
  | n + 1, c :: t =>
    match descContentAt (c :: t) with
    | some cap => some cap
    | none => descSearch n t

/-- Try `kind:\s*description` at this position, then the lazy search. -/
def descTryAt (s : Chars) : Option Chars :=
  if hasPreCI (lit "kind:") s then
    let w := spanWs (s.drop 5)
    if hasPreCI (lit "description") w.2 then
      let r := w.2.drop 11
      descSearch r.length r
    else none
  else none

/-- `content.match(/kind:\s*description[\s\S]*?content:\s*["']?...["']?/i)`
(docker.ts line 188): leftmost start position wins. -/
def findDescFrom : Nat → Chars → Option Chars
  | 0, _ => none
  | _ + 1, [] => none
  | n + 1, c :: t =>
    match descTryAt (c :: t) with
    | some cap => some cap
    | none => findDescFrom n t

/-- The description capture of the manifest, if the regex matches. -/
def findDesc (c : Chars) : Option Chars :=
  findDescFrom c.length c

/-- `/\n\s+/g → ' '` (docker.ts line 199); `\s+` is the maximal run. -/
def tryNlWs (s : Chars) : Option (Chars × Nat) :=
  match s with
  | '\n' :: r =>
    let w := spanWs r
    if w.1.isEmpty then none else some ([' '], 1 + w.1.length)
  | _ => none

/-- `descMatch[1].replace(/\n\s+/g, ' ')`. -/
def collapseNlWs (s : Chars) : Chars := replaceAllG tryNlWs s

/-- The metadata fields `getBenchmarkInfoFast` may fill from
`benchmark.yaml` (docker.ts lines 21-24). -/
structure ManifestMeta where
  name : Chars
  level : Option Nat
  tags : Option (List Chars)
  description : Option Chars
deriving DecidableEq, Repr

/-- docker.ts lines 177-203: best-effort pattern extraction.  `none`
content is the `catch` branch (missing/unreadable manifest): every field
keeps its default.  Each matched field is set as the source does
(lines 190-200); a failed match leaves the default. -/
def parseManifest (unitName : Chars) (content : Option Chars) : ManifestMeta :=
  match content with
  | none => { name := unitName, level := none, tags := none, description := none }
  | some c =>
    { name := match findName c with | some cap => trimWs cap | none => unitName,
      level := findLevel c,
      tags := (findTags c).map (fun ls => ls.map (fun t => trimWs (t.drop 2))),
      description := (findDesc c).map (fun d => trimWs (collapseNlWs d)) }

/-- One on-disk benchmark directory as the filesystem probes of
`getBenchmarkInfoFast` see it: the directory name, the `benchmark.yaml`
content when readable, and the two existence probes (docker.ts 169-175). -/
structure BenchmarkDir where
  dirName : Chars
  manifest : Option Chars
  hasCompose : Bool
  hasMakefile : Bool
deriving DecidableEq, Repr

/-- `getBenchmarkInfoFast` (docker.ts lines 149-252): assemble one unit
from the shared container and image lists. -/
def getBenchmarkInfoFast (d : BenchmarkDir) (allContainers : List RawContainer)
    (allImages : List ImageInfo) : BenchmarkInfo :=
  let meta := parseManifest d.dirName d.manifest
  let cs := (allContainers.filter (matchesBenchmark d.dirName)).map toContainerInfo
  { id := d.dirName,
    name := meta.name,
    level := meta.level,
    tags := meta.tags,
    description := meta.description,
    hasDockerCompose := d.hasCompose,
    hasMakefile := d.hasMakefile,
    status := deriveStatus cs,
    ports := extractPorts cs,
    containers := cs,
    hasImage := hasImageFor d.dirName allImages }

/-- `.catch(() => [])` (docker.ts lines 112-113): a daemon failure is
flattened to the empty list, never rethrown. -/
def caught {α : Type} (r : Except Unit (List α)) : List α :=
  match r with
  | .ok l => l
  | .error _ => []

/-- `listBenchmarks` (docker.ts lines 100-137): one shared
container/image fetch for all units (failures caught to `[]`), per-unit
assembly, then the sort by embedded numeric id. -/
def listBenchmarks (dirs : List BenchmarkDir)
    (containersR : Except Unit (List RawContainer))
    (imagesR : Except Unit (List ImageInfo)) : List BenchmarkInfo :=
  sortBenchmarks
    (dirs.map (fun d => getBenchmarkInfoFast d (caught containersR) (caught imagesR)))

/- ### C1 — status derivation -/

/-- C1: Status derivation is a pure function of a unit's container
snapshots: for every list of container snapshots, the derived status is
`stopped` iff the list is empty or no container has state `running`,
`running` iff the list is non-empty and every container has state
`running`, and `partial` (constructor `partialSt`) iff at least one
container is running and at least one is not. -/
theorem C1_status_derivation (cs : List ContainerInfo) :
    (deriveStatus cs = .stopped ↔ (cs = [] ∨ ∀ c ∈ cs, c.state ≠ lit "running")) ∧
    (deriveStatus cs = .running ↔ (cs ≠ [] ∧ ∀ c ∈ cs, c.state = lit "running")) ∧
    (deriveStatus cs = .partialSt ↔
      ((∃ c ∈ cs, c.state = lit "running") ∧ ∃ c ∈ cs, c.state ≠ lit "running")) := by
  by_cases h0 : cs = []
  · subst h0; simp [deriveStatus]
  · obtain ⟨x0, hx0⟩ := List.exists_mem_of_ne_nil cs h0
    have hlen : (cs.length == 0) = false := by
      simp only [beq_eq_false_iff_ne, ne_eq, List.length_eq_zero]
      exact h0
    by_cases hall : ∀ c ∈ cs, c.state = lit "running"
    · have hd : deriveStatus cs = .running := by
        have ha : (cs.all fun c => c.state == lit "running") = true := by
          simp only [List.all_eq_true, beq_iff_eq]; exact hall
        simp [deriveStatus, hlen, ha]
      rw [hd]
      refine ⟨⟨fun h => absurd h (by decide), ?_⟩,
              ⟨fun _ => ⟨h0, hall⟩, fun _ => rfl⟩,
              ⟨fun h => absurd h (by decide), ?_⟩⟩
      · rintro (rfl | hnone)
        · exact absurd rfl h0
        · exact absurd (hall x0 hx0) (hnone x0 hx0)
      · rintro ⟨⟨y, hy, hyrun⟩, z, hz, hzne⟩
        exact absurd (hall z hz) hzne
    · have ha : (cs.all fun c => c.state == lit "running") = false := by
        simp only [Bool.eq_false_iff, ne_eq, List.all_eq_true, beq_iff_eq]
        exact hall
      by_cases hany : ∃ c ∈ cs, c.state = lit "running"
      · have hd : deriveStatus cs = .partialSt := by
        -- not all running, some running
          have hb : (cs.any fun c => c.state == lit "running") = true := by
            simp only [List.any_eq_true, beq_iff_eq]; exact hany
          simp [deriveStatus, hlen, ha, hb]
        rw [hd]
        push_neg at hall
        obtain ⟨w, hw, hwne⟩ := hall
        obtain ⟨y, hy, hyrun⟩ := hany
        refine ⟨⟨fun h => absurd h (by decide), ?_⟩,
                ⟨fun h => absurd h (by decide), ?_⟩,
                ⟨fun _ => ⟨⟨y, hy, hyrun⟩, ⟨w, hw, hwne⟩⟩, fun _ => rfl⟩⟩
        · rintro (rfl | hnone)
          · exact absurd rfl h0
          · exact absurd hyrun (hnone y hy)
        · rintro ⟨hne, hrun⟩
          exact absurd (hrun w hw) hwne
      · have hd : deriveStatus cs = .stopped := by
          have hb : (cs.any fun c => c.state == lit "running") = false := by
            simp only [Bool.eq_false_iff, ne_eq, List.any_eq_true, beq_iff_eq]
            exact hany
          simp [deriveStatus, hlen, ha, hb]
        rw [hd]
        push_neg at hany
        refine ⟨⟨fun _ => Or.inr hany, fun _ => rfl⟩,
                ⟨fun h => absurd h (by decide), ?_⟩,
                ⟨fun h => absurd h (by decide), ?_⟩⟩
        · rintro ⟨hne, hrun⟩
          exact absurd (hrun x0 hx0) (hany x0 hx0)
        · rintro ⟨⟨y, hy, hyrun⟩, _⟩
          exact absurd hyrun (hany y hy)

/- ### C4, C10 — port aggregation -/

theorem portsLookup_nil (k : Nat) : portsLookup [] k = [] := rfl

theorem portsLookup_insert_self (m : List (Nat × List Chars)) (k : Nat) (v : Chars) :
    portsLookup (portsInsert m k v) k = portsLookup m k ++ [v] := by
  induction m with
  | nil => simp [portsInsert, portsLookup, List.find?]
  | cons e r ih =>
    obtain ⟨k', vs⟩ := e
    by_cases hk : (k' == k) = true
    · have hk' : k' = k := by simpa using hk
      subst hk'
      simp [portsInsert, portsLookup, List.find?]
    · have hkf : (k' == k) = false := by simpa using hk
      simp only [portsInsert, hkf, Bool.false_eq_true, if_false]
      simp only [portsLookup, List.find?, hkf] at *
      exact ih

theorem portsLookup_insert_other (m : List (Nat × List Chars)) (k k' : Nat) (v : Chars)
    (hne : k' ≠ k) : portsLookup (portsInsert m k v) k' = portsLookup m k' := by
  induction m with
  | nil =>
    have : (k == k') = false := by simpa using fun h => hne h.symm
    simp [portsInsert, portsLookup, List.find?, this]
  | cons e r ih =>
    obtain ⟨k0, vs⟩ := e
    by_cases hk : (k0 == k) = true
    · have hk0 : k0 = k := by simpa using hk
      subst hk0
      have : (k0 == k') = false := by simpa using fun h => hne h.symm
      simp [portsInsert, portsLookup, List.find?, this]
    · have hkf : (k0 == k) = false := by simpa using hk
      by_cases h0 : (k0 == k') = true
      · simp [portsInsert, hkf, portsLookup, List.find?, h0]
      · have h0f : (k0 == k') = false := by simpa using h0
        simp only [portsInsert, hkf, Bool.false_eq_true, if_false]
        simp only [portsLookup, List.find?, h0f] at *
        exact ih

/-- The host-port strings one container contributes under container-port
`k`, in binding order: its published (`pub ≠ 0`) bindings with that
container port. -/
def contribOf (c : ContainerInfo) (k : Nat) : List Chars :=
  (c.portMappings.filter (fun p => p.pub != 0 && p.priv == k)).map (fun p => natChars p.pub)

theorem addMappings_lookup (ms : List PortMapping) (m : List (Nat × List Chars)) (k : Nat) :
    portsLookup
        (ms.foldl (fun m p => if p.pub != 0 then portsInsert m p.priv (natChars p.pub) else m) m)
        k
      = portsLookup m k
        ++ (ms.filter (fun p => p.pub != 0 && p.priv == k)).map (fun p => natChars p.pub) := by
  induction ms generalizing m with
  | nil => simp
  | cons p ms ih =>
    simp only [List.foldl_cons, List.filter_cons]
    by_cases h1 : (p.pub != 0) = true
    · by_cases h2 : (p.priv == k) = true
      · have hpk : p.priv = k := by simpa using h2
        rw [if_pos h1, ih]
        rw [hpk, portsLookup_insert_self]
        simp [h1, h2, List.append_assoc]
      · have h2f : (p.priv == k) = false := by simpa using h2
        have hne : p.priv ≠ k := by simpa using h2
        rw [if_pos h1, ih, portsLookup_insert_other _ _ _ _ (Ne.symm hne)]
        simp [h1, h2f]
    · have h1f : (p.pub != 0) = false := by simpa using h1
      rw [if_neg (by simp [h1f]), ih]
      simp [h1f]

theorem addContainerPorts_lookup (m : List (Nat × List Chars)) (c : ContainerInfo) (k : Nat) :
    portsLookup (addContainerPorts m c) k = portsLookup m k ++ contribOf c k := by
  unfold addContainerPorts contribOf
  exact addMappings_lookup c.portMappings m k

/-- C4: Port aggregation — for every list of a unit's container snapshots
(in the order they appear in the shared daemon container list) and every
container port `k`, the unit's `ports[k]` is exactly the concatenation,
in container processing order, of each container's published host ports
bound to container port `k` (binding order within a container).  In
particular two containers both publishing container port 80 to distinct
host ports yield both host ports under key 80, in container order. -/
theorem C4_port_aggregation (cs : List ContainerInfo) (k : Nat) :
    portsLookup (extractPorts cs) k = (cs.map (fun c => contribOf c k)).flatten := by
  suffices h : ∀ m, portsLookup (cs.foldl addContainerPorts m) k
      = portsLookup m k ++ (cs.map (fun c => contribOf c k)).flatten by
    simpa [extractPorts, portsLookup_nil] using h []
  induction cs with
  | nil => simp
  | cons c cs ih =>
    intro m
    simp only [List.foldl_cons, List.map_cons, List.flatten_cons]
    rw [ih, addContainerPorts_lookup]
    simp [List.append_assoc]

/-- Entries of the ports map hold nonempty lists of rendered nonzero ports. -/
def PortsOk (m : List (Nat × List Chars)) : Prop :=
  ∀ e ∈ m, e.2 ≠ [] ∧ ∀ s ∈ e.2, ∃ n : Nat, n ≠ 0 ∧ s = natChars n

theorem portsInsert_ok (m : List (Nat × List Chars)) (k : Nat) (v : Chars)
    (hm : PortsOk m) (hv : ∃ n : Nat, n ≠ 0 ∧ v = natChars n) :
    PortsOk (portsInsert m k v) := by
  induction m with
  | nil =>
    intro e he
    simp only [portsInsert, List.mem_singleton] at he
    subst he
    exact ⟨by simp, by
      intro s hs
      simp only [List.mem_singleton] at hs
      subst hs
      exact hv⟩
  | cons e0 r ih =>
    obtain ⟨k', vs⟩ := e0
    by_cases hk : (k' == k) = true
    · intro e he
      simp only [portsInsert, hk, if_true] at he
      rcases List.mem_cons.mp he with rfl | hmem
      · refine ⟨by simp, ?_⟩
        intro s hs
        rcases List.mem_append.mp hs with h | h
        · exact (hm (k', vs) (List.mem_cons_self _ _)).2 s h
        · simp only [List.mem_singleton] at h
          subst h
          exact hv
      · exact hm e (List.mem_cons_of_mem _ hmem)
    · have hkf : (k' == k) = false := by simpa using hk
      intro e he
      simp only [portsInsert, hkf, Bool.false_eq_true, if_false] at he
      rcases List.mem_cons.mp he with rfl | hmem
      · exact hm (k', vs) (List.mem_cons_self _ _)
      · exact ih (fun e' he' => hm e' (List.mem_cons_of_mem _ he')) e hmem

theorem addContainerPorts_ok (m : List (Nat × List Chars)) (c : ContainerInfo)
    (hm : PortsOk m) : PortsOk (addContainerPorts m c) := by
  unfold addContainerPorts
  induction c.portMappings generalizing m with
  | nil => exact hm
  | cons p ms ih =>
    simp only [List.foldl_cons]
    by_cases h1 : (p.pub != 0) = true
    · rw [if_pos h1]
      exact ih _ (portsInsert_ok m p.priv (natChars p.pub) hm
        ⟨p.pub, by simpa using h1, rfl⟩)
    · rw [if_neg (by simpa using h1)]
      exact ih _ hm

/-- C10: implicit invariant of unit assembly — a binding whose published
host port is absent (normalized to 0) never appears in the unit's ports
map nor in a container's published-ports string list: every entry of the
ports map holds a nonempty list of rendered nonzero host ports, and every
string in a container's `ports` comes from a binding with `pub ≠ 0`, even
though `portMappings` records unpublished bindings with `pub = 0`. -/
theorem C10_ports_invariant :
    (∀ cs : List ContainerInfo, ∀ e ∈ extractPorts cs,
        e.2 ≠ [] ∧ ∀ s ∈ e.2, ∃ n : Nat, n ≠ 0 ∧ s = natChars n) ∧
    (∀ raw : RawContainer, ∀ s ∈ (toContainerInfo raw).ports,
        ∃ m ∈ (toContainerInfo raw).portMappings, m.pub ≠ 0 ∧ s = portStr m) := by
  constructor
  · intro cs
    suffices h : ∀ m, PortsOk m → PortsOk (cs.foldl addContainerPorts m) by
      exact h [] (by intro e he; simp at he)
    induction cs with
    | nil => exact fun m hm => hm
    | cons c cs ih =>
      intro m hm
      exact ih _ (addContainerPorts_ok m c hm)
  · intro raw s hs
    simp only [toContainerInfo, List.mem_map, List.mem_filter] at hs
    obtain ⟨p, ⟨hp, hpub⟩, rfl⟩ := hs
    refine ⟨p, ?_, by simpa using hpub, rfl⟩
    simpa [toContainerInfo] using hp

/- ### Decomposition lemmas for the matchers -/

theorem spanWs_append (s : Chars) : (spanWs s).1 ++ (spanWs s).2 = s := by
  induction s with
  | nil => rfl
  | cons c cs ih =>
    by_cases h : isWs c = true
    · simp [spanWs, h, ih]
    · simp [spanWs, h]

theorem spanDigits_append (s : Chars) : (spanDigits s).1 ++ (spanDigits s).2 = s := by
  induction s with
  | nil => rfl
  | cons c cs ih =>
    by_cases h : isDigitC c = true
    · simp [spanDigits, h, ih]
    · simp [spanDigits, h]

theorem spanP_append (p : Char → Bool) (s : Chars) : (spanP p s).1 ++ (spanP p s).2 = s := by
  induction s with
  | nil => rfl
  | cons c cs ih =>
    by_cases h : p c = true
    · simp [spanP, h, ih]
    · simp [spanP, h]

theorem spanWs_length (s : Chars) : (spanWs s).1.length + (spanWs s).2.length = s.length := by
  conv_rhs => rw [← spanWs_append s]
  simp

theorem spanDigits_length (s : Chars) :
    (spanDigits s).1.length + (spanDigits s).2.length = s.length := by
  conv_rhs => rw [← spanDigits_append s]
  simp

theorem hasPre_length_le (p s : Chars) (h : hasPre p s = true) : p.length ≤ s.length := by
  obtain ⟨t, rfl⟩ := (hasPre_iff p s).mp h
  simp

theorem hasPre_drop_eq (p s : Chars) (h : hasPre p s = true) :
    s = p ++ s.drop p.length := by
  obtain ⟨t, rfl⟩ := (hasPre_iff p s).mp h
  simp

theorem hasPreCI_length_le (p s : Chars) (h : hasPreCI p s = true) : p.length ≤ s.length := by
  induction p generalizing s with
  | nil => simp
  | cons a ps ih =>
    cases s with
    | nil => simp [hasPreCI] at h
    | cons c cs =>
      simp only [hasPreCI, Bool.and_eq_true] at h
      simpa [Nat.succ_le_succ_iff] using ih cs h.2

theorem quoteOpt_length (s : Chars) :
    (quoteOpt s).1 + (quoteOpt s).2.length = s.length := by
  cases s with
  | nil => rfl
  | cons c r =>
    by_cases h : isQuote c = true
    · simp [quoteOpt, h]
      omega
    · simp [quoteOpt, h]

theorem quoteOpt_le (s : Chars) : (quoteOpt s).1 ≤ s.length := by
  have := quoteOpt_length s
  omega

/-- A successful tail match: the replacement is strictly shorter than the
matched span, and the span fits within the consumed prefix plus `s`. -/
theorem exposeTail_bounds (ws1 ws2 : Chars) (q1 : Nat) (s : Chars) (m : ExposeM)
    (hm : exposeTail ws1 ws2 q1 s = some m) :
    m.repl.length < m.len ∧
      m.len ≤ 7 + ws1.length + 1 + ws2.length + q1 + s.length := by
  unfold exposeTail at hm
  by_cases hd1 : ((spanDigits s).1.length == 0) = true
  · rw [if_pos hd1] at hm; exact absurd hm (by simp)
  rw [if_neg hd1] at hm
  split at hm
  · exact absurd hm (by simp)
  next c2 r4 hs =>
    by_cases hc2 : (c2 == ':') = true
    case neg => rw [if_neg hc2] at hm; exact absurd hm (by simp)
    rw [if_pos hc2] at hm
    by_cases hd2 : ((spanDigits r4).1.length == 0) = true
    · rw [if_pos hd2] at hm; exact absurd hm (by simp)
    rw [if_neg hd2] at hm
    have hm' := Option.some.inj hm
    subst hm'
    have e1 : (spanDigits s).1.length + (spanDigits s).2.length = s.length :=
      spanDigits_length s
    have e2 : (spanDigits r4).1.length + (spanDigits r4).2.length = r4.length :=
      spanDigits_length r4
    have e3 : (quoteOpt (spanDigits r4).2).1 ≤ (spanDigits r4).2.length :=
      quoteOpt_le _
    have e4 : (spanDigits s).2.length = 1 + r4.length := by
      rw [hs]; simp only [List.length_cons]; omega
    have h1 : (spanDigits s).1.length ≠ 0 := by simpa using hd1
    have h2 : (spanDigits r4).1.length ≠ 0 := by simpa using hd2
    have hseven : (lit "expose:").length = 7 := rfl
    refine ⟨?_, ?_⟩
    · dsimp only
      simp only [List.length_append, List.length_cons]
      omega
    · dsimp only
      omega

/-- A successful expose match: the replacement is strictly shorter than
the matched span, and the span fits in the string. -/
theorem tryExposeCaps_bounds (s : Chars) (m : ExposeM) (hm : tryExposeCaps s = some m) :
    m.repl.length < m.len ∧ m.len ≤ s.length := by
  unfold tryExposeCaps at hm
  by_cases h1 : hasPre (lit "expose:") s = true
  case neg => rw [if_neg h1] at hm; exact absurd hm (by simp)
  rw [if_pos h1] at hm
  by_cases h2 : ((spanWs (s.drop 7)).1.contains '\n') = true
  case neg => rw [if_neg h2] at hm; exact absurd hm (by simp)
  rw [if_pos h2] at hm
  split at hm
  · exact absurd hm (by simp)
  next cdash r2 hp =>
    by_cases hdash : (cdash == '-') = true
    case neg => rw [if_neg hdash] at hm; exact absurd hm (by simp)
    rw [if_pos hdash] at hm
    obtain ⟨hlt, hle⟩ := exposeTail_bounds _ _ _ _ _ hm
    refine ⟨hlt, ?_⟩
    have e0 : s.length = 7 + (s.drop 7).length := by
      have h7 : (lit "expose:").length ≤ s.length := hasPre_length_le _ _ h1
      have h7e : (lit "expose:").length = 7 := rfl
      rw [h7e] at h7
      simp only [List.length_drop]
      omega
    have e1 : (spanWs (s.drop 7)).1.length + (spanWs (s.drop 7)).2.length
        = (s.drop 7).length := spanWs_length _
    have e2 : (spanWs (s.drop 7)).2.length = 1 + r2.length := by
      rw [hp]; simp only [List.length_cons]; omega
    have e3 : (spanWs r2).1.length + (spanWs r2).2.length = r2.length := spanWs_length _
    have e4 : (quoteOpt (spanWs r2).2).1 + (quoteOpt (spanWs r2).2).2.length
        = (spanWs r2).2.length := quoteOpt_length _
    omega

/- ### Span analyses of the Dockerfile rewrite matchers

Each matcher of the fixer consumes a span of a known shape: a concrete
literal (`tryApt`), a case-insensitive literal (`tryComposer`), or
CI `FROM` + a whitespace run + a tail of CI literals and wildcards
(`tryMysql`).  The lemmas here decompose a firing into that shape and
discharge `spanOkB` for a target literal `P` from decidable checks, so
that `scanRep_contains_eq` applies: the rewrites cannot create or destroy
occurrences of the other rules' guard literals. -/

/-- Character-by-character case-insensitive match (same length). -/
def ciMatch : Chars → Chars → Bool
  | [], [] => true
  | p :: ps, c :: cs => lowEq p c && ciMatch ps cs
  | _, _ => false

theorem ciMatch_length (L t : Chars) (h : ciMatch L t = true) :
    t.length = L.length := by
  induction L generalizing t with
  | nil =>
    cases t with
    | nil => rfl
    | cons c cs => simp [ciMatch] at h
  | cons p ps ih =>
    cases t with
    | nil => simp [ciMatch] at h
    | cons c cs =>
      simp only [ciMatch, Bool.and_eq_true] at h
      simp [ih cs h.2]

theorem ciMatch_split (L x z : Chars) (h : ciMatch L (x ++ z) = true) :
    ciMatch (L.take x.length) x = true ∧ ciMatch (L.drop x.length) z = true := by
  induction x generalizing L with
  | nil => exact ⟨by simp [ciMatch], by simpa using h⟩
  | cons c cs ih =>
    cases L with
    | nil => simp [ciMatch] at h
    | cons p ps =>
      simp only [List.cons_append, ciMatch, Bool.and_eq_true] at h
      obtain ⟨e1, e2⟩ := ih ps h.2
      simp only [List.length_cons, List.take_succ_cons, List.drop_succ_cons, ciMatch,
        Bool.and_eq_true]
      exact ⟨⟨h.1, e1⟩, e2⟩

theorem hasPreCI_take (p s : Chars) (h : hasPreCI p s = true) :
    ciMatch p (s.take p.length) = true := by
  induction p generalizing s with
  | nil => simp [ciMatch]
  | cons a ps ih =>
    cases s with
    | nil => simp [hasPreCI] at h
    | cons c cs =>
      simp only [hasPreCI, Bool.and_eq_true] at h
      simp only [List.length_cons, List.take_succ_cons, ciMatch, Bool.and_eq_true]
      exact ⟨h.1, ih cs h.2⟩

/-- The per-character conditions `matchTailCI` imposes on the consumed
tail: CI equality at literal tokens, any non-terminator at wildcards. -/
def tailWild : List (Option Char) → Chars → Bool
  | [], [] => true
  | some p :: ps, c :: cs => lowEq p c && tailWild ps cs
  | none :: ps, c :: cs => (! (c == '\n' || c == '\r')) && tailWild ps cs
  | _, _ => false

theorem tailWild_length (pat : List (Option Char)) (t : Chars)
    (h : tailWild pat t = true) : t.length = pat.length := by
  induction pat generalizing t with
  | nil =>
    cases t with
    | nil => rfl
    | cons c cs => simp [tailWild] at h
  | cons p ps ih =>
    cases t with
    | nil => cases p <;> simp [tailWild] at h
    | cons c cs =>
      cases p with
      | some pc =>
        simp only [tailWild, Bool.and_eq_true] at h
        simp [ih cs h.2]
      | none =>
        simp only [tailWild, Bool.and_eq_true] at h
        simp [ih cs h.2]

theorem matchTailCI_take (pat : List (Option Char)) (s : Chars) (m : Nat)
    (h : matchTailCI pat s = some m) : tailWild pat (s.take pat.length) = true := by
  induction pat generalizing s m with
  | nil => simp [tailWild]
  | cons p ps ih =>
    cases s with
    | nil => cases p <;> simp [matchTailCI] at h
    | cons c cs =>
      cases p with
      | some pc =>
        simp only [matchTailCI] at h
        by_cases hl : lowEq pc c = true
        · rw [if_pos hl] at h
          cases hmt : matchTailCI ps cs with
          | none => rw [hmt] at h; exact absurd h (by simp)
          | some m2 =>
            simp only [List.length_cons, List.take_succ_cons, tailWild, Bool.and_eq_true]
            exact ⟨hl, ih cs m2 hmt⟩
        · rw [if_neg hl] at h; exact absurd h (by simp)
      | none =>
        simp only [matchTailCI] at h
        by_cases hl : (c == '\n' || c == '\r') = true
        · rw [if_pos hl] at h; exact absurd h (by simp)
        · rw [if_neg hl] at h
          cases hmt : matchTailCI ps cs with
          | none => rw [hmt] at h; exact absurd h (by simp)
          | some m2 =>
            simp only [List.length_cons, List.take_succ_cons, tailWild, Bool.and_eq_true]
            exact ⟨by simpa using hl, ih cs m2 hmt⟩

/-- The final character of a `tailWild` tail whose last token is the
literal `dlast` is CI-equal to `dlast`. -/
theorem tailWild_last (pat : List (Option Char)) (t : Chars) (dlast : Char)
    (hlastTok : pat.reverse.head? = some (some dlast)) (h : tailWild pat t = true) :
    ∃ c, t.reverse.head? = some c ∧ lowEq dlast c = true := by
  induction pat generalizing t with
  | nil => simp at hlastTok
  | cons p ps ih =>
    cases t with
    | nil => cases p <;> simp [tailWild] at h
    | cons c cs =>
      cases ps with
      | nil =>
        have hcs : cs = [] := by
          have hlen := tailWild_length _ _ h
          simp only [List.length_cons, List.length_nil] at hlen
          exact List.length_eq_zero.mp (by omega)
        subst hcs
        have hp : p = some dlast := by simpa using hlastTok
        subst hp
        simp only [tailWild, Bool.and_eq_true] at h
        exact ⟨c, by simp, h.1⟩
      | cons q qs =>
        have hcs : tailWild (q :: qs) cs = true := by
          cases p with
          | some pc =>
            simp only [tailWild, Bool.and_eq_true] at h
            exact h.2
          | none =>
            simp only [tailWild, Bool.and_eq_true] at h
            exact h.2
        have hcs_ne : cs ≠ [] := by
          intro he
          subst he
          simp [tailWild] at hcs
        have hlast2 : (q :: qs).reverse.head? = some (some dlast) := by
          rw [List.reverse_cons] at hlastTok
          rcases List.exists_cons_of_ne_nil
            (show (q :: qs).reverse ≠ [] by simp) with ⟨a, as, has⟩
          rw [has] at hlastTok ⊢
          simpa using hlastTok
        obtain ⟨c2, hc2, hl2⟩ := ih cs hlast2 hcs
        refine ⟨c2, ?_, hl2⟩
        rw [List.reverse_cons]
        rcases List.exists_cons_of_ne_nil
          (show cs.reverse ≠ [] by simpa using hcs_ne) with ⟨a, as, has⟩
        rw [has] at hc2 ⊢
        simpa using hc2

theorem spanWs_all_ws (s : Chars) : ∀ c ∈ (spanWs s).1, isWs c = true := by
  induction s with
  | nil => simp [spanWs]
  | cons c cs ih =>
    by_cases h : isWs c = true
    · simp only [spanWs, h, if_true]
      intro x hx
      rcases List.mem_cons.mp hx with rfl | hx2
      · exact h
      · exact ih x hx2
    · simp only [spanWs, h, Bool.false_eq_true, if_false]
      simp

theorem spanOkB_intro (P A R : Chars)
    (h1 : containsS A P = false) (h2 : containsS R P = false)
    (h3 : ∀ i, 0 < i → i < P.length →
      hasSuf (P.take i) A = false ∧ hasSuf (P.take i) R = false)
    (h4 : ∀ i, i < P.length →
      hasPre ((P.drop i).take A.length) A = false ∧
      hasPre ((P.drop i).take R.length) R = false) :
    spanOkB P A R = true := by
  simp only [spanOkB, Bool.and_eq_true]
  refine ⟨⟨by simp [h1], by simp [h2]⟩, ?_⟩
  rw [List.all_eq_true]
  intro i hi
  have hil := List.mem_range.mp hi
  simp only [Bool.and_eq_true, Bool.or_eq_true, decide_eq_true_eq, Bool.not_eq_true']
  refine ⟨⟨?_, (h4 i hil).1⟩, (h4 i hil).2⟩
  by_cases h0 : i = 0
  · exact Or.inl h0
  · exact Or.inr ⟨(h3 i (Nat.pos_of_ne_zero h0) hil).1,
      (h3 i (Nat.pos_of_ne_zero h0) hil).2⟩

/-- Decidable checks ruling out any interaction between an occurrence of
`P` and a span that case-insensitively matches `L`, replaced by the
concrete `R`: no CI slice of `L` can be `P`, no CI suffix of `L` can be a
nonempty proper prefix of `P`, no CI prefix of `L` can start a tail of
`P`, and `R` passes the same checks as in `spanOkB`. -/
def ciSpanOkB (L P R : Chars) : Bool :=
  ! containsS R P &&
  (List.range (L.length + 1)).all (fun j => ! ciMatch ((L.drop j).take P.length) P) &&
  (List.range P.length).all (fun i =>
    (decide (i = 0) || (! ciMatch (L.drop (L.length - i)) (P.take i) &&
                        ! hasSuf (P.take i) R)) &&
    ! ciMatch (L.take ((P.drop i).take L.length).length) ((P.drop i).take L.length) &&
    ! hasPre ((P.drop i).take R.length) R)

theorem spanOkB_of_ciMatch (L P R A : Chars) (hA : ciMatch L A = true)
    (hok : ciSpanOkB L P R = true) : spanOkB P A R = true := by
  have hAL : A.length = L.length := ciMatch_length L A hA
  simp only [ciSpanOkB, Bool.and_eq_true] at hok
  obtain ⟨⟨hR, hsl⟩, hrng⟩ := hok
  rw [List.all_eq_true] at hsl hrng
  apply spanOkB_intro
  · cases hc : containsS A P with
    | false => rfl
    | true =>
      exfalso
      obtain ⟨x, y, hxy⟩ := (containsS_iff _ _).mp hc
      have hsplit1 := ciMatch_split L x (P ++ y)
        (by rw [← List.append_assoc, ← hxy]; exact hA)
      have hsplit2 := ciMatch_split (L.drop x.length) P y hsplit1.2
      have hj : x.length ≤ L.length := by
        have hl := congrArg List.length hxy
        simp only [List.length_append] at hl
        omega
      have hbad := hsl x.length (List.mem_range.mpr (by omega))
      rw [hsplit2.1] at hbad
      simp at hbad
  · simpa using hR
  · intro i hi0 hil
    have hbad := hrng i (List.mem_range.mpr hil)
    simp only [Bool.and_eq_true, Bool.or_eq_true, decide_eq_true_eq,
      Bool.not_eq_true'] at hbad
    rcases hbad.1.1 with h0 | ⟨hs1, hs2⟩
    · omega
    · refine ⟨?_, hs2⟩
      cases hc : hasSuf (P.take i) A with
      | false => rfl
      | true =>
        exfalso
        obtain ⟨t, ht⟩ := (hasSuf_iff _ _).mp hc
        have hsp := ciMatch_split L t (P.take i) (by rw [← ht]; exact hA)
        have htl : t.length = L.length - i := by
          have hlA := congrArg List.length ht
          simp only [List.length_append, List.length_take] at hlA
          rw [Nat.min_eq_left (Nat.le_of_lt hil)] at hlA
          omega
        rw [htl] at hsp
        rw [hs1] at hsp
        exact absurd hsp.2 (by simp)
  · intro i hil
    have hbad := hrng i (List.mem_range.mpr hil)
    simp only [Bool.and_eq_true, Bool.or_eq_true, decide_eq_true_eq,
      Bool.not_eq_true'] at hbad
    refine ⟨?_, hbad.2⟩
    cases hc : hasPre ((P.drop i).take A.length) A with
    | false => rfl
    | true =>
      exfalso
      obtain ⟨t, ht⟩ := (hasPre_iff _ _).mp hc
      have hsp := ciMatch_split L ((P.drop i).take A.length) t (by rw [← ht]; exact hA)
      rw [hAL] at hsp
      rw [hbad.1.2] at hsp
      exact absurd hsp.1 (by simp)

theorem tryComposer_some (s r : Chars) (k : Nat) (h : tryComposer s = some (r, k)) :
    r = lit "composer:2.5" ∧ k = 15 ∧ k ≤ s.length ∧
    ciMatch (lit "composer:latest") (s.take 15) = true := by
  unfold tryComposer at h
  by_cases hp : hasPreCI (lit "composer:latest") s = true
  · rw [if_pos hp] at h
    simp only [Option.some.injEq, Prod.mk.injEq] at h
    obtain ⟨h1, h2⟩ := h
    refine ⟨h1.symm, h2.symm, ?_, ?_⟩
    · rw [← h2]
      exact hasPreCI_length_le _ _ hp
    · exact hasPreCI_take _ _ hp
  · rw [if_neg hp] at h
    exact absurd h (by simp)

/-- `spanOkB` side conditions for every composer firing, from the
decidable `ciSpanOkB` checks on the literal. -/
theorem tryComposer_spanOk (P : Chars)
    (hok : ciSpanOkB (lit "composer:latest") P (lit "composer:2.5") = true) :
    ∀ s r k, tryComposer s = some (r, k) →
      1 ≤ k ∧ k ≤ s.length ∧ spanOkB P (s.take k) r = true := by
  intro s r k h
  obtain ⟨hr, hk, hks, hci⟩ := tryComposer_some s r k h
  subst hr
  subst hk
  exact ⟨by omega, hks, spanOkB_of_ciMatch _ _ _ _ hci hok⟩

theorem tryApt_some (s r : Chars) (k : Nat) (h : tryApt s = some (r, k)) :
    r = lit "apt-get update -o Acquire::Check-Valid-Until=false" ∧ k = 14 ∧
    k ≤ s.length ∧ s.take 14 = lit "apt-get update" := by
  unfold tryApt at h
  by_cases hp : hasPre (lit "apt-get update") s = true
  · rw [if_pos hp] at h
    by_cases hla : (decide (1 ≤ (spanWs (s.drop 14)).1.length) &&
        hasPre (lit "-o") (spanWs (s.drop 14)).2) = true
    · rw [if_pos hla] at h
      exact absurd h (by simp)
    · rw [if_neg hla] at h
      simp only [Option.some.injEq, Prod.mk.injEq] at h
      obtain ⟨h1, h2⟩ := h
      obtain ⟨t, ht⟩ := (hasPre_iff _ _).mp hp
      refine ⟨h1.symm, h2.symm, ?_, ?_⟩
      · rw [← h2]
        exact hasPre_length_le _ _ hp
      · rw [ht]
        rw [show (14 : Nat) = (lit "apt-get update").length from rfl, List.take_left]
  · rw [if_neg hp] at h
    exact absurd h (by simp)

/-- `spanOkB` side conditions for every apt firing, from the decidable
checks on the two concrete literals. -/
theorem tryApt_spanOk (P : Chars)
    (hok : spanOkB P (lit "apt-get update")
        (lit "apt-get update -o Acquire::Check-Valid-Until=false") = true) :
    ∀ s r k, tryApt s = some (r, k) →
      1 ≤ k ∧ k ≤ s.length ∧ spanOkB P (s.take k) r = true := by
  intro s r k h
  obtain ⟨hr, hk, hks, hsp⟩ := tryApt_some s r k h
  subst hr
  subst hk
  rw [hsp]
  exact ⟨by omega, hks, hok⟩

theorem headOpt_append_left (l₁ l₂ : Chars) (h : l₁ ≠ []) :
    (l₁ ++ l₂).head? = l₁.head? := by
  cases l₁ with
  | nil => exact absurd rfl h
  | cons a as => rfl

theorem matchTailCI_some (pat : List (Option Char)) (s : Chars) (m : Nat)
    (h : matchTailCI pat s = some m) : m = pat.length ∧ pat.length ≤ s.length := by
  induction pat generalizing s m with
  | nil =>
    simp only [matchTailCI, Option.some.injEq] at h
    simp [← h]
  | cons p ps ih =>
    cases s with
    | nil => simp [matchTailCI] at h
    | cons c cs =>
      cases p with
      | some pc =>
        simp only [matchTailCI] at h
        by_cases hl : lowEq pc c = true
        · rw [if_pos hl] at h
          cases hmt : matchTailCI ps cs with
          | none => rw [hmt] at h; exact absurd h (by simp)
          | some m' =>
            rw [hmt] at h
            simp only [Option.map_some', Option.some.injEq] at h
            obtain ⟨e1, e2⟩ := ih cs m' hmt
            subst h
            simp only [List.length_cons]
            omega
        · rw [if_neg hl] at h; exact absurd h (by simp)
      | none =>
        simp only [matchTailCI] at h
        by_cases hl : (c == '\n' || c == '\r') = true
        · rw [if_pos hl] at h; exact absurd h (by simp)
        · rw [if_neg hl] at h
          cases hmt : matchTailCI ps cs with
          | none => rw [hmt] at h; exact absurd h (by simp)
          | some m' =>
            rw [hmt] at h
            simp only [Option.map_some', Option.some.injEq] at h
            obtain ⟨e1, e2⟩ := ih cs m' hmt
            subst h
            simp only [List.length_cons]
            omega

theorem tryMysql_some (pat : List (Option Char)) (newI s r : Chars) (k : Nat)
    (h : tryMysql pat newI s = some (r, k)) :
    r = lit "FROM " ++ newI ∧ 5 + pat.length ≤ k ∧ k ≤ s.length := by
  unfold tryMysql at h
  by_cases h1 : hasPreCI (lit "FROM") s = true
  case neg => rw [if_neg h1] at h; exact absurd h (by simp)
  rw [if_pos h1] at h
  by_cases h2 : ((spanWs (s.drop 4)).1.length == 0) = true
  · rw [if_pos h2] at h; exact absurd h (by simp)
  rw [if_neg h2] at h
  cases hmt : matchTailCI pat (spanWs (s.drop 4)).2 with
  | none => rw [hmt] at h; exact absurd h (by simp)
  | some m =>
    rw [hmt] at h
    simp only [Option.some.injEq, Prod.mk.injEq] at h
    obtain ⟨hr, hk⟩ := h
    obtain ⟨hm, hml⟩ := matchTailCI_some pat _ m hmt
    have h4 : (lit "FROM").length ≤ s.length := hasPreCI_length_le _ _ h1
    have h4e : (lit "FROM").length = 4 := rfl
    have hsw : (spanWs (s.drop 4)).1.length + (spanWs (s.drop 4)).2.length
        = (s.drop 4).length := spanWs_length _
    have hdl : (s.drop 4).length = s.length - 4 := by simp
    have hw : (spanWs (s.drop 4)).1.length ≠ 0 := by simpa using h2
    refine ⟨hr.symm, ?_, ?_⟩ <;> omega

/-- Span decomposition of a MySQL firing: CI `FROM`, a nonempty
whitespace run, and a `tailWild` tail. -/
theorem tryMysql_span (pat : List (Option Char)) (newI s r : Chars) (k : Nat)
    (h : tryMysql pat newI s = some (r, k)) :
    ∃ F W T, s.take k = F ++ (W ++ T) ∧ ciMatch (lit "FROM") F = true ∧
      W ≠ [] ∧ (∀ c ∈ W, isWs c = true) ∧ tailWild pat T = true := by
  unfold tryMysql at h
  by_cases h1 : hasPreCI (lit "FROM") s = true
  case neg => rw [if_neg h1] at h; exact absurd h (by simp)
  rw [if_pos h1] at h
  by_cases h2 : ((spanWs (s.drop 4)).1.length == 0) = true
  · rw [if_pos h2] at h
    exact absurd h (by simp)
  rw [if_neg h2] at h
  cases hmt : matchTailCI pat (spanWs (s.drop 4)).2 with
  | none => rw [hmt] at h; exact absurd h (by simp)
  | some m =>
    rw [hmt] at h
    simp only [Option.some.injEq, Prod.mk.injEq] at h
    obtain ⟨_, hk⟩ := h
    obtain ⟨hm, hml⟩ := matchTailCI_some pat _ m hmt
    subst hm
    have hci : ciMatch (lit "FROM") (s.take 4) = true := hasPreCI_take _ _ h1
    have hWne : (spanWs (s.drop 4)).1 ≠ [] := by
      intro he
      rw [he] at h2
      simp at h2
    refine ⟨s.take 4, (spanWs (s.drop 4)).1, ((spanWs (s.drop 4)).2).take pat.length,
      ?_, hci, hWne, spanWs_all_ws _, matchTailCI_take pat _ _ hmt⟩
    have hlen4 : (s.take 4).length = 4 := by
      rw [List.length_take]
      have h4 := hasPreCI_length_le _ _ h1
      have h4e : (lit "FROM").length = 4 := rfl
      rw [h4e] at h4
      omega
    have hTlen : (((spanWs (s.drop 4)).2).take pat.length).length = pat.length := by
      rw [List.length_take]
      exact Nat.min_eq_left hml
    have hcomb : (s.take 4 ++ ((spanWs (s.drop 4)).1 ++
        (((spanWs (s.drop 4)).2).take pat.length ++
          ((spanWs (s.drop 4)).2).drop pat.length))) = s := by
      rw [List.take_append_drop, spanWs_append, List.take_append_drop]
    have hassoc : s.take 4 ++ ((spanWs (s.drop 4)).1 ++
        (((spanWs (s.drop 4)).2).take pat.length ++
          ((spanWs (s.drop 4)).2).drop pat.length))
        = (s.take 4 ++ ((spanWs (s.drop 4)).1 ++ ((spanWs (s.drop 4)).2).take pat.length))
          ++ ((spanWs (s.drop 4)).2).drop pat.length := by
      simp [List.append_assoc]
    have hXlen : (s.take 4 ++ ((spanWs (s.drop 4)).1 ++
        ((spanWs (s.drop 4)).2).take pat.length)).length = k := by
      simp only [List.length_append, hlen4, hTlen]
      omega
    conv_lhs => rw [← hcomb, hassoc]
    rw [List.take_left' hXlen]

/-- Decidable checks for `spanOkB` against any MySQL match span (CI
`FROM` + whitespace + a `tailWild pat` tail ending in the literal digit
`dlast`): `P` is longer than both fixed parts, contains no whitespace,
never ends in a character CI-equal to `dlast` and never starts with a
character CI-equal to `F`; the concrete replacement `R` passes the usual
checks. -/
def mysqlSpanOkB (dlast : Char) (P R : Chars) : Bool :=
  ! containsS R P &&
  decide (4 < P.length) && decide (12 < P.length) &&
  P.all (fun c => ! isWs c) &&
  (List.range P.length).all (fun i =>
    (decide (i = 0) || (((P.take i).reverse.take 1).all (fun c => ! lowEq dlast c) &&
                        ! hasSuf (P.take i) R)) &&
    ((P.drop i).take 1).all (fun c => ! lowEq 'F' c) &&
    ! hasPre ((P.drop i).take R.length) R)

theorem spanOkB_of_mysqlSpan (pat : List (Option Char)) (dlast : Char)
    (P R F W T : Chars)
    (hlastTok : pat.reverse.head? = some (some dlast))
    (hpat12 : pat.length ≤ 12)
    (hF : ciMatch (lit "FROM") F = true)
    (hW : W ≠ []) (hWws : ∀ c ∈ W, isWs c = true)
    (hT : tailWild pat T = true)
    (hok : mysqlSpanOkB dlast P R = true) :
    spanOkB P (F ++ (W ++ T)) R = true := by
  simp only [mysqlSpanOkB, Bool.and_eq_true, decide_eq_true_eq] at hok
  obtain ⟨⟨⟨⟨hR, hP4⟩, hP12⟩, hPws⟩, hrng⟩ := hok
  rw [List.all_eq_true] at hrng
  have hPws2 : ∀ c ∈ P, isWs c = false := by
    intro c hc
    have hx := List.all_eq_true.mp hPws c hc
    simpa using hx
  have hFlen : F.length = 4 := by
    have := ciMatch_length _ _ hF
    simpa using this
  have hTlen : T.length = pat.length := tailWild_length _ _ hT
  have hPne : P ≠ [] := by
    intro he
    subst he
    simp at hP4
  obtain ⟨cT, hcT, hlT⟩ := tailWild_last pat T dlast hlastTok hT
  have hTne : T ≠ [] := by
    intro he
    subst he
    simp at hcT
  have hFne : F ≠ [] := by
    intro he
    rw [he] at hFlen
    simp at hFlen
  obtain ⟨f0, F2, hF2⟩ : ∃ f0 F2, F = f0 :: F2 := by
    cases F with
    | nil => exact absurd rfl hFne
    | cons a b => exact ⟨a, b, rfl⟩
  have hf0 : lowEq 'F' f0 = true := by
    rw [hF2] at hF
    have hstep : ciMatch ('F' :: lit "ROM") (f0 :: F2) = true := hF
    simp only [ciMatch, Bool.and_eq_true] at hstep
    exact hstep.1
  obtain ⟨w0, W2, hW2⟩ : ∃ w0 W2, W = w0 :: W2 := by
    cases W with
    | nil => exact absurd rfl hW
    | cons a b => exact ⟨a, b, rfl⟩
  have hw0 : isWs w0 = true := hWws w0 (by rw [hW2]; exact List.mem_cons_self _ _)
  apply spanOkB_intro
  · -- the span cannot contain P
    cases hc : containsS (F ++ (W ++ T)) P with
    | false => rfl
    | true =>
      exfalso
      rcases (containsS_append_iff _ _ _).mp hc with hA | hB | ⟨i, hi0, hil, _, hpreWT⟩
      · have hle := containsS_length_le _ _ hA
        rw [hFlen] at hle
        omega
      · rcases (containsS_append_iff _ _ _).mp hB with hW3 | hT3 | ⟨i, hi0, hil, hsufW, _⟩
        · obtain ⟨x, y, hxy⟩ := (containsS_iff _ _).mp hW3
          obtain ⟨p0, pt, hp0⟩ : ∃ p0 pt, P = p0 :: pt := by
            cases P with
            | nil => exact absurd rfl hPne
            | cons a b => exact ⟨a, b, rfl⟩
          have hmem : p0 ∈ W := by
            rw [hxy, hp0]
            simp
          have hws := hWws p0 hmem
          have hnws := hPws2 p0 (by rw [hp0]; exact List.mem_cons_self _ _)
          rw [hws] at hnws
          exact absurd hnws (by simp)
        · have hle := containsS_length_le _ _ hT3
          rw [hTlen] at hle
          omega
        · obtain ⟨t, ht⟩ := (hasSuf_iff _ _).mp hsufW
          obtain ⟨p0, pt, hp0⟩ : ∃ p0 pt, P = p0 :: pt := by
            cases P with
            | nil => exact absurd rfl hPne
            | cons a b => exact ⟨a, b, rfl⟩
          have hmem : p0 ∈ W := by
            rw [ht]
            refine List.mem_append_right t ?_
            cases i with
            | zero => omega
            | succ j =>
              rw [hp0, List.take_succ_cons]
              exact List.mem_cons_self _ _
          have hws := hWws p0 hmem
          have hnws := hPws2 p0 (by rw [hp0]; exact List.mem_cons_self _ _)
          rw [hws] at hnws
          exact absurd hnws (by simp)
      · -- straddle F / (W ++ T): head of the tail of P would be whitespace
        obtain ⟨q0, qt, hq0⟩ : ∃ q0 qt, P.drop i = q0 :: qt := by
          cases hd : P.drop i with
          | nil =>
            have hlen := congrArg List.length hd
            simp only [List.length_drop, List.length_nil] at hlen
            omega
          | cons a b => exact ⟨a, b, rfl⟩
        rw [hq0, hW2] at hpreWT
        simp only [List.cons_append, hasPre, Bool.and_eq_true, beq_iff_eq] at hpreWT
        have hq0m : q0 ∈ P :=
          List.mem_of_mem_drop (by rw [hq0]; exact List.mem_cons_self _ _)
        have hnws := hPws2 q0 hq0m
        rw [hpreWT.1, hw0] at hnws
        exact absurd hnws (by simp)
  · simpa using hR
  · intro i hi0 hil
    have hbad := hrng i (List.mem_range.mpr hil)
    simp only [Bool.and_eq_true, Bool.or_eq_true, decide_eq_true_eq,
      Bool.not_eq_true'] at hbad
    rcases hbad.1.1 with h0 | ⟨hlast1, hs2⟩
    · omega
    · refine ⟨?_, hs2⟩
      cases hc : hasSuf (P.take i) (F ++ (W ++ T)) with
      | false => rfl
      | true =>
        exfalso
        have htake_ne : (P.take i).reverse ≠ [] := by
          intro he
          have hlen := congrArg List.length he
          simp only [List.length_reverse, List.length_take, List.length_nil] at hlen
          omega
        obtain ⟨t, ht⟩ := (hasSuf_iff _ _).mp hc
        have hrev : (P.take i).reverse.head? = some cT := by
          have h1 : (F ++ (W ++ T)).reverse.head? = (P.take i).reverse.head? := by
            rw [ht, List.reverse_append, headOpt_append_left _ _ htake_ne]
          rw [← h1]
          rw [List.reverse_append, List.reverse_append]
          rw [headOpt_append_left _ _ (by
            intro he
            rcases List.append_eq_nil.mp he with ⟨he1, _⟩
            exact hTne (by simpa using he1))]
          rw [headOpt_append_left _ _ (by simpa using hTne)]
          exact hcT
        obtain ⟨rt, hrt⟩ : ∃ rt, (P.take i).reverse = cT :: rt := by
          cases hr : (P.take i).reverse with
          | nil => exact absurd hr htake_ne
          | cons a b =>
            rw [hr] at hrev
            simp only [List.head?_cons, Option.some.injEq] at hrev
            exact ⟨b, by rw [hrev]⟩
        rw [hrt] at hlast1
        simp only [List.take_succ_cons, List.take_nil, List.all_cons, List.all_nil,
          Bool.and_true, Bool.not_eq_true'] at hlast1
        rw [hlT] at hlast1
        exact absurd hlast1 (by simp)
  · intro i hil
    have hbad := hrng i (List.mem_range.mpr hil)
    simp only [Bool.and_eq_true, Bool.or_eq_true, decide_eq_true_eq,
      Bool.not_eq_true'] at hbad
    refine ⟨?_, hbad.2⟩
    cases hc : hasPre ((P.drop i).take (F ++ (W ++ T)).length) (F ++ (W ++ T)) with
    | false => rfl
    | true =>
      exfalso
      obtain ⟨q0, qt, hq0⟩ : ∃ q0 qt, P.drop i = q0 :: qt := by
        cases hd : P.drop i with
        | nil =>
          have hlen := congrArg List.length hd
          simp only [List.length_drop, List.length_nil] at hlen
          omega
        | cons a b => exact ⟨a, b, rfl⟩
      rw [hq0, hF2] at hc
      simp only [List.cons_append, List.length_cons, List.take_succ_cons, hasPre,
        Bool.and_eq_true, beq_iff_eq] at hc
      have hq0f : q0 = f0 := hc.1
      have hbad2 := hbad.1.2
      rw [hq0] at hbad2
      simp only [List.take_succ_cons, List.take_nil, List.all_cons, List.all_nil,
        Bool.and_true, Bool.not_eq_true'] at hbad2
      rw [hq0f] at hbad2
      rw [hf0] at hbad2
      exact absurd hbad2 (by simp)

/- ### Preservation of guard literals through the passes -/

/-- Generic MySQL-loop preservation: when every entry's matcher satisfies
the `spanOkB` side conditions for `P`, the whole loop leaves
`containsS · P` unchanged. -/
theorem mysqlFix_preserves (f : Chars) (es : List (Chars × Chars)) (P : Chars)
    (hes : ∀ e ∈ es, ∀ s r k,
      tryMysql (escFirstDot false e.1) e.2 s = some (r, k) →
      1 ≤ k ∧ k ≤ s.length ∧ spanOkB P (s.take k) r = true) :
    ∀ c, containsS (mysqlFix f es c).1 P = containsS c P := by
  induction es with
  | nil => intro c; rfl
  | cons e es ih =>
    intro c
    obtain ⟨oldI, newI⟩ := e
    by_cases hg : containsS c (lit "FROM " ++ oldI) = true
    · simp only [mysqlFix, hg, if_true]
      rw [ih (fun e he => hes e (List.mem_cons_of_mem _ he)) _]
      exact replaceAllG_contains_eq _ P (hes (oldI, newI) (List.mem_cons_self _ _)) c
    · have hgf : containsS c (lit "FROM " ++ oldI) = false := by simpa using hg
      simp only [mysqlFix, hgf, Bool.false_eq_true, if_false]
      exact ih (fun e he => hes e (List.mem_cons_of_mem _ he)) c

/-- The MySQL pass cannot create or destroy occurrences of a literal `P`
passing the decidable checks against all five entries (used for
`composer:latest` and `archive.debian.org`): every match span is CI
`FROM` + whitespace + an image tail ending in a digit, every replacement
is `FROM mysql:5.7`. -/
theorem mysqlFix_preserves_lit (f c P : Chars)
    (h1 : mysqlSpanOkB '5' P (lit "FROM mysql:5.7") = true)
    (h2 : mysqlSpanOkB '4' P (lit "FROM mysql:5.7") = true)
    (h3 : mysqlSpanOkB '3' P (lit "FROM mysql:5.7") = true)
    (h4 : mysqlSpanOkB '2' P (lit "FROM mysql:5.7") = true)
    (h5 : mysqlSpanOkB '6' P (lit "FROM mysql:5.7") = true) :
    containsS (mysqlFix f BROKEN_MYSQL_IMAGES c).1 P = containsS c P := by
  apply mysqlFix_preserves
  intro e he s r k hm
  obtain ⟨hr, hk5, hks⟩ := tryMysql_some _ _ _ _ _ hm
  obtain ⟨F, W, T, hspan, hF, hW, hWws, hT⟩ := tryMysql_span _ _ _ _ _ hm
  refine ⟨by omega, hks, ?_⟩
  rw [hspan, hr]
  simp only [BROKEN_MYSQL_IMAGES, List.mem_cons, List.not_mem_nil, or_false] at he
  rcases he with rfl | rfl | rfl | rfl | rfl
  · exact spanOkB_of_mysqlSpan _ '5' P _ F W T (by decide) (by decide) hF hW hWws hT h1
  · exact spanOkB_of_mysqlSpan _ '4' P _ F W T (by decide) (by decide) hF hW hWws hT h2
  · exact spanOkB_of_mysqlSpan _ '3' P _ F W T (by decide) (by decide) hF hW hWws hT h3
  · exact spanOkB_of_mysqlSpan _ '2' P _ F W T (by decide) (by decide) hF hW hWws hT h4
  · exact spanOkB_of_mysqlSpan _ '6' P _ F W T (by decide) (by decide) hF hW hWws hT h5

/- ### The Buster branch: line insertion and the apt rewrite -/

theorem insertRepoFix_subset (ls : List Chars) (x : Chars) (hx : x ∈ ls) :
    x ∈ (insertRepoFix ls).1 := by
  induction ls with
  | nil => simp at hx
  | cons l ls ih =>
    by_cases hc : containsS (toLowerC l) (lit "apt-get update") = true
    · simp only [insertRepoFix, hc, if_true]
      exact List.mem_append_right _ hx
    · have hcf : containsS (toLowerC l) (lit "apt-get update") = false := by simpa using hc
      simp only [insertRepoFix, hcf, Bool.false_eq_true, if_false]
      rcases List.mem_cons.mp hx with rfl | hx2
      · exact List.mem_cons_self _ _
      · exact List.mem_cons_of_mem _ (ih hx2)

theorem insertRepoFix_mem (ls : List Chars) (x : Chars)
    (hx : x ∈ (insertRepoFix ls).1) : x ∈ repoFixLines ∨ x ∈ ls := by
  induction ls with
  | nil => simp [insertRepoFix] at hx
  | cons l ls ih =>
    by_cases hc : containsS (toLowerC l) (lit "apt-get update") = true
    · simp only [insertRepoFix, hc, if_true] at hx
      rcases List.mem_append.mp hx with h1 | h2
      · exact Or.inl h1
      · exact Or.inr h2
    · have hcf : containsS (toLowerC l) (lit "apt-get update") = false := by simpa using hc
      simp only [insertRepoFix, hcf, Bool.false_eq_true, if_false] at hx
      rcases List.mem_cons.mp hx with rfl | h2
      · exact Or.inr (List.mem_cons_self _ _)
      · rcases ih h2 with h3 | h3
        · exact Or.inl h3
        · exact Or.inr (List.mem_cons_of_mem _ h3)

/-- The insertion fires iff some line contains the refresh instruction
case-insensitively (fixer.ts line 154). -/
theorem insertRepoFix_fired_iff (ls : List Chars) :
    (insertRepoFix ls).2 = true ↔
      ∃ l ∈ ls, containsS (toLowerC l) (lit "apt-get update") = true := by
  induction ls with
  | nil => simp [insertRepoFix]
  | cons l ls ih =>
    by_cases hc : containsS (toLowerC l) (lit "apt-get update") = true
    · simp only [insertRepoFix, hc, if_true]
      constructor
      · intro _
        exact ⟨l, List.mem_cons_self _ _, hc⟩
      · intro _
        trivial
    · have hcf : containsS (toLowerC l) (lit "apt-get update") = false := by simpa using hc
      simp only [insertRepoFix, hcf, Bool.false_eq_true, if_false]
      rw [ih]
      constructor
      · rintro ⟨x, hx, hcx⟩
        exact ⟨x, List.mem_cons_of_mem _ hx, hcx⟩
      · rintro ⟨x, hx, hcx⟩
        rcases List.mem_cons.mp hx with rfl | hx2
        · rw [hcf] at hcx
          exact absurd hcx (by simp)
        · exact ⟨x, hx2, hcx⟩

theorem insertRepoFix_no_line (ls : List Chars)
    (h : (insertRepoFix ls).2 = false) : (insertRepoFix ls).1 = ls := by
  induction ls with
  | nil => rfl
  | cons l ls ih =>
    by_cases hc : containsS (toLowerC l) (lit "apt-get update") = true
    · simp [insertRepoFix, hc] at h
    · have hcf : containsS (toLowerC l) (lit "apt-get update") = false := by simpa using hc
      simp only [insertRepoFix, hcf, Bool.false_eq_true, if_false] at h ⊢
      rw [ih h]

theorem insertRepoFix_fired_mem (ls : List Chars)
    (h : (insertRepoFix ls).2 = true) (x : Chars) (hx : x ∈ repoFixLines) :
    x ∈ (insertRepoFix ls).1 := by
  induction ls with
  | nil => simp [insertRepoFix] at h
  | cons l ls ih =>
    by_cases hc : containsS (toLowerC l) (lit "apt-get update") = true
    · simp only [insertRepoFix, hc, if_true]
      exact List.mem_append_left _ hx
    · have hcf : containsS (toLowerC l) (lit "apt-get update") = false := by simpa using hc
      simp only [insertRepoFix, hcf, Bool.false_eq_true, if_false] at h ⊢
      exact List.mem_cons_of_mem _ (ih h)

/-- When no line of the content contains the refresh instruction
case-insensitively, the content has no case-sensitive occurrence either,
so the apt rewrite never fires. -/
theorem no_ci_line_no_apt_hit (c : Chars)
    (h : ∀ l ∈ splitNl c, containsS (toLowerC l) (lit "apt-get update") = false) :
    scanHit tryApt c.length c = false := by
  cases hh : scanHit tryApt c.length c with
  | false => rfl
  | true =>
    exfalso
    have hcs : containsS c (lit "apt-get update") = true := by
      refine scanHit_imp_contains tryApt (lit "apt-get update") ?_ c.length c hh
      intro s hs
      unfold tryApt at hs
      by_cases hp : hasPre (lit "apt-get update") s = true
      · exact hp
      · rw [if_neg hp] at hs
        simp at hs
    have hjoin : containsS (joinNl (splitNl c)) (lit "apt-get update") = true := by
      rw [joinNl_splitNl]
      exact hcs
    obtain ⟨l, hl, hcl⟩ :=
      (containsS_joinNl (splitNl c) _ (by decide) (by decide)).mp hjoin
    have hlow : containsS (toLowerC l) (toLowerC (lit "apt-get update")) = true :=
      containsS_map Char.toLower _ _ hcl
    have hfix : toLowerC (lit "apt-get update") = lit "apt-get update" := by decide
    rw [hfix, h l hl] at hlow
    exact absurd hlow (by simp)

/-- A Buster pass that records no item leaves the content untouched. -/
theorem busterFix_nil_content (f x : Chars) (h : (busterFix f x).2 = []) :
    (busterFix f x).1 = x := by
  unfold busterFix at h ⊢
  by_cases hg : (usesBuster x && ! containsS x (lit "archive.debian.org")) = true
  · rw [if_pos hg] at h ⊢
    dsimp only at h ⊢
    by_cases hfired : (insertRepoFix (splitNl x)).2 = true
    · rw [if_pos hfired] at h
      simp at h
    · have hff : (insertRepoFix (splitNl x)).2 = false := by simpa using hfired
      rw [insertRepoFix_no_line _ hff, joinNl_splitNl]
      have hnoline : ∀ l ∈ splitNl x,
          containsS (toLowerC l) (lit "apt-get update") = false := by
        intro l hl
        cases hcl : containsS (toLowerC l) (lit "apt-get update") with
        | false => rfl
        | true =>
          exfalso
          have hfire := (insertRepoFix_fired_iff (splitNl x)).mpr ⟨l, hl, hcl⟩
          rw [hfire] at hff
          exact absurd hff (by simp)
      exact scanRep_of_no_hit tryApt x.length x (no_ci_line_no_apt_hit x hnoline)
  · rw [if_neg hg]

/-- The Buster branch neither creates nor destroys occurrences of a
newline-free literal `P` absent from the inserted repo lines and passing
the apt span checks. -/
theorem busterFix_preserves (f c P : Chars) (hPne : P ≠ [])
    (hnl : ∀ ch ∈ P, ch ≠ '\n')
    (hrepo : ∀ l ∈ repoFixLines, containsS l P = false)
    (hapt : spanOkB P (lit "apt-get update")
        (lit "apt-get update -o Acquire::Check-Valid-Until=false") = true) :
    containsS (busterFix f c).1 P = containsS c P := by
  unfold busterFix
  by_cases hg : (usesBuster c && ! containsS c (lit "archive.debian.org")) = true
  · rw [if_pos hg]
    dsimp only
    have h1 : containsS (replaceAllG tryApt (joinNl (insertRepoFix (splitNl c)).1)) P
        = containsS (joinNl (insertRepoFix (splitNl c)).1) P :=
      replaceAllG_contains_eq tryApt P (tryApt_spanOk P hapt) _
    have h2 : containsS (joinNl (insertRepoFix (splitNl c)).1) P = containsS c P := by
      rw [Bool.eq_iff_iff, containsS_joinNl _ P hPne hnl]
      conv_rhs => rw [← joinNl_splitNl c]
      rw [containsS_joinNl _ P hPne hnl]
      constructor
      · rintro ⟨l, hl, hcl⟩
        rcases insertRepoFix_mem _ _ hl with hrl | hml
        · rw [hrepo l hrl] at hcl
          exact absurd hcl (by simp)
        · exact ⟨l, hml, hcl⟩
      · rintro ⟨l, hl, hcl⟩
        exact ⟨l, insertRepoFix_subset _ _ hl, hcl⟩
    exact h1.trans h2
  · rw [if_neg hg]

/-- The composer branch neither creates nor destroys occurrences of a
literal `P` passing the decidable checks against its CI span and
replacement. -/
theorem composerFix_preserves (f c P : Chars)
    (hok : ciSpanOkB (lit "composer:latest") P (lit "composer:2.5") = true) :
    containsS (composerFix f c).1 P = containsS c P := by
  unfold composerFix
  by_cases hg : containsS c (lit "composer:latest") = true
  · rw [if_pos hg]
    dsimp only
    exact replaceAllG_contains_eq tryComposer P (tryComposer_spanOk P hok) c
  · rw [if_neg hg]

theorem busterFix_files (f c : Chars) :
    ∀ i ∈ (busterFix f c).2, i.file = f := by
  unfold busterFix
  by_cases hg : (usesBuster c && ! containsS c (lit "archive.debian.org")) = true
  · rw [if_pos hg]
    dsimp only
    by_cases hfired : (insertRepoFix (splitNl c)).2 = true
    · rw [if_pos hfired]
      intro i hi
      rcases List.mem_cons.mp hi with rfl | hi2
      · rfl
      · simp at hi2
    · rw [if_neg hfired]
      intro i hi
      simp at hi
  · rw [if_neg hg]
    intro i hi
    simp at hi

theorem composerFix_files (f c : Chars) :
    ∀ i ∈ (composerFix f c).2, i.file = f := by
  unfold composerFix
  by_cases hg : containsS c (lit "composer:latest") = true
  · rw [if_pos hg]
    intro i hi
    rcases List.mem_cons.mp hi with rfl | hi2
    · rfl
    · simp at hi2
  · rw [if_neg hg]
    intro i hi
    simp at hi

/- ### C5 — analyze/fix agreement -/

theorem tryExpose_bounds (s r : Chars) (k : Nat) (h : tryExpose s = some (r, k)) :
    r.length < k ∧ k ≤ s.length := by
  unfold tryExpose at h
  cases hm : tryExposeCaps s with
  | none => rw [hm] at h; exact absurd h (by simp)
  | some m =>
    rw [hm] at h
    simp only [Option.map_some'] at h
    obtain ⟨h1, h2⟩ := Prod.mk.injEq .. ▸ Option.some.inj h
    subst h1; subst h2
    exact tryExposeCaps_bounds s m hm

theorem scanFirstExpose_isSome (n : Nat) (s : Chars) :
    (scanFirstExpose n s).isSome = scanHit tryExpose n s := by
  induction n generalizing s with
  | zero => rfl
  | succ n ih =>
    cases s with
    | nil => rfl
    | cons c cs =>
      simp only [scanFirstExpose, scanHit]
      cases hm : tryExposeCaps (c :: cs) with
      | some m => simp [tryExpose, hm]
      | none => simp [tryExpose, hm, ih cs]

theorem composeFix_items_iff (c : Chars) :
    (composeFix c).2 ≠ [] ↔ hitG tryExpose c = true := by
  constructor
  · intro h
    by_contra hh
    have hnf : scanHit tryExpose c.length c = false := by
      simpa [hitG] using hh
    have hid := scanRep_of_no_hit tryExpose c.length c hnf
    simp [composeFix, replaceAllG, hid] at h
  · intro h
    have hlt : (scanRep tryExpose c.length c).length < c.length :=
      scanRep_length_lt tryExpose (fun s r k hm => tryExpose_bounds s r k hm) c.length c h
    have hne : replaceAllG tryExpose c ≠ c := by
      intro he
      rw [replaceAllG] at he
      rw [he] at hlt
      exact absurd hlt (by omega)
    simp [composeFix, hne]

theorem composeAnalyze_items_iff (c : Chars) :
    composeAnalyze c ≠ [] ↔ hitG tryExpose c = true := by
  unfold composeAnalyze
  cases hm : scanFirstExpose c.length c with
  | some g =>
    have : (scanFirstExpose c.length c).isSome = true := by rw [hm]; rfl
    rw [scanFirstExpose_isSome] at this
    simp [hitG, this]
  | none =>
    have : (scanFirstExpose c.length c).isSome = false := by rw [hm]; rfl
    rw [scanFirstExpose_isSome] at this
    simp [hitG, this]

theorem mysqlAnalyze_ne_nil (f c : Chars) :
    mysqlAnalyze f c ≠ [] ↔
      ∃ e ∈ BROKEN_MYSQL_IMAGES, containsS c (lit "FROM " ++ e.1) = true := by
  unfold mysqlAnalyze
  rw [ne_eq, List.map_eq_nil_iff]
  constructor
  · intro h
    rcases hx : (BROKEN_MYSQL_IMAGES.filter (fun e => containsS c (lit "FROM " ++ e.1))) with
      _ | ⟨e, es⟩
    · exact absurd hx h
    · have he : e ∈ BROKEN_MYSQL_IMAGES.filter (fun e => containsS c (lit "FROM " ++ e.1)) := by
        rw [hx]; exact List.mem_cons_self _ _
      obtain ⟨hmem, hp⟩ := List.mem_filter.mp he
      exact ⟨e, hmem, hp⟩
  · rintro ⟨e, hmem, hp⟩ hx
    have : e ∈ BROKEN_MYSQL_IMAGES.filter (fun e => containsS c (lit "FROM " ++ e.1)) :=
      List.mem_filter.mpr ⟨hmem, hp⟩
    rw [hx] at this
    exact absurd this (List.not_mem_nil e)

theorem mysqlFix_ne_nil (f : Chars) (es : List (Chars × Chars)) (c : Chars) :
    (mysqlFix f es c).2 ≠ [] ↔ ∃ e ∈ es, containsS c (lit "FROM " ++ e.1) = true := by
  induction es generalizing c with
  | nil => simp [mysqlFix]
  | cons e es ih =>
    obtain ⟨oldI, newI⟩ := e
    by_cases h : containsS c (lit "FROM " ++ oldI) = true
    · simp only [mysqlFix, h, if_true]
      constructor
      · intro _
        exact ⟨(oldI, newI), List.mem_cons_self _ _, h⟩
      · intro _
        simp
    · have hf : containsS c (lit "FROM " ++ oldI) = false := by simpa using h
      simp only [mysqlFix, hf, Bool.false_eq_true, if_false]
      rw [ih c]
      constructor
      · rintro ⟨e, he, hcc⟩
        exact ⟨e, List.mem_cons_of_mem _ he, hcc⟩
      · rintro ⟨e, he, hcc⟩
        rcases List.mem_cons.mp he with rfl | he'
        · exact absurd hcc (by simp [hf])
        · exact ⟨e, he', hcc⟩

theorem composerAnalyze_ne_nil (f c : Chars) :
    composerAnalyze f c ≠ [] ↔ containsS c (lit "composer:latest") = true := by
  unfold composerAnalyze
  by_cases h : containsS c (lit "composer:latest") = true
  · rw [if_pos h]
    simp [h]
  · rw [if_neg h]
    simp [h]

theorem composerFix_ne_nil (f c : Chars) :
    (composerFix f c).2 ≠ [] ↔ containsS c (lit "composer:latest") = true := by
  unfold composerFix
  by_cases h : containsS c (lit "composer:latest") = true
  · rw [if_pos h]
    simp [h]
  · rw [if_neg h]
    simp [h]

/-- Neither the MySQL pass nor the Buster branch can create or destroy an
occurrence of `composer:latest` (no MySQL match span or replacement, no
inserted repo line and no apt span or replacement can contain the literal
or half of it), so fix()'s composer guard sees exactly the original
content's guard. -/
theorem composer_guard_preserved (f c : Chars) :
    containsS (busterFix f (mysqlFix f BROKEN_MYSQL_IMAGES c).1).1
        (lit "composer:latest") = containsS c (lit "composer:latest") := by
  rw [busterFix_preserves f _ _ (by decide) (by decide) (by decide) (by decide)]
  exact mysqlFix_preserves_lit f c _ (by decide) (by decide) (by decide)
    (by decide) (by decide)

/-- C5 (amended): analyze and fix agree on the MySQL rule, on the
composer rule, and on the compose expose rule: on every Dockerfile
content, analyze reports a MySQL FixItem iff fix applies at least one;
analyze reports the composer FixItem iff fix's composer pass (which runs
on the output of the MySQL and Buster passes — they cannot create or
destroy `composer:latest`) applies one; and on every compose content,
analyze reports the malformed-expose FixItem iff fix changes the file.
The Buster rule is excluded: fix matches the package-index-refresh
instruction case-insensitively per line while analyze requires the
lowercase literal, so they can disagree (see the counterexample). -/
theorem C5_analyze_fix_agree_amended :
    (∀ f c : Chars, mysqlAnalyze f c ≠ [] ↔ (mysqlFix f BROKEN_MYSQL_IMAGES c).2 ≠ []) ∧
    (∀ f c : Chars, composerAnalyze f c ≠ [] ↔
      (composerFix f (busterFix f (mysqlFix f BROKEN_MYSQL_IMAGES c).1).1).2 ≠ []) ∧
    (∀ cc : Chars, composeAnalyze cc ≠ [] ↔ (composeFix cc).2 ≠ []) := by
  refine ⟨?_, ?_, ?_⟩
  · intro f c
    rw [mysqlAnalyze_ne_nil f c, mysqlFix_ne_nil f _ c]
  · intro f c
    rw [composerAnalyze_ne_nil f c, composerFix_ne_nil f _,
      composer_guard_preserved f c]
  · intro cc
    rw [composeAnalyze_items_iff cc, composeFix_items_iff cc]

/-- The Dockerfile content of the C5 counterexample: a Buster-based image
whose package-index-refresh instruction is spelled in upper case. -/
def c5content : Chars := lit "FROM debian:buster\nRUN APT-GET UPDATE"

/-- The benchmark of the C5 counterexample. -/
def c5bench : Benchmark :=
  { dockerfiles := [(lit "Dockerfile", c5content)], compose := none }

/-- C5 counterexample: analyze detects nothing on this unit (its
case-sensitive `apt-get update` gate fails), while fix applies (and
reports) a Buster FixItem — so analyze does not detect exactly the fixes
fix applies. -/
theorem C5_counterexample :
    analyzeBenchmark c5bench = [] ∧
    (fixBenchmark c5bench).2.map (fun i => (i.type, i.file)) =
      [(FixType.buster, lit "Dockerfile")] := by
  constructor
  · decide
  · decide

/- ### C2 — fix() idempotence -/

/-- A Dockerfile rule applies to this content: a broken-MySQL `FROM`
literal occurs, or the Buster branch is entered AND some line contains
the refresh instruction case-insensitively (only then does the branch
insert lines or rewrite anything), or `composer:latest` occurs. -/
def dockerfileRuleApplies (c : Chars) : Bool :=
  BROKEN_MYSQL_IMAGES.any (fun e => containsS c (lit "FROM " ++ e.1)) ||
  (usesBuster c && ! containsS c (lit "archive.debian.org") &&
    (splitNl c).any (fun l => containsS (toLowerC l) (lit "apt-get update"))) ||
  containsS c (lit "composer:latest")

/-- A compose rule applies: a malformed expose entry occurs. -/
def composeRuleApplies : Option Chars → Bool
  | none => false
  | some cc => hitG tryExpose cc

theorem mysqlFix_no_guard (f : Chars) (es : List (Chars × Chars)) (c : Chars)
    (h : ∀ e ∈ es, containsS c (lit "FROM " ++ e.1) = false) :
    mysqlFix f es c = (c, []) := by
  induction es with
  | nil => rfl
  | cons e es ih =>
    obtain ⟨oldI, newI⟩ := e
    have hf := h (oldI, newI) (List.mem_cons_self _ _)
    simp only [mysqlFix, hf, Bool.false_eq_true, if_false]
    exact ih (fun e he => h e (List.mem_cons_of_mem _ he))

theorem composeFix_no_rule (cc : Chars) (h : hitG tryExpose cc = false) :
    composeFix cc = (cc, []) := by
  have hid := scanRep_of_no_hit tryExpose cc.length cc h
  simp [composeFix, replaceAllG, hid]

/-- The Buster branch with no case-insensitive apt-get-update line is a
no-op even when entered: no insertion fires, `split`/`join` round-trips,
and the apt rewrite has nothing to match. -/
theorem busterFix_no_line (f c : Chars)
    (h : ∀ l ∈ splitNl c, containsS (toLowerC l) (lit "apt-get update") = false) :
    busterFix f c = (c, []) := by
  unfold busterFix
  by_cases hg : (usesBuster c && ! containsS c (lit "archive.debian.org")) = true
  · rw [if_pos hg]
    have hff : (insertRepoFix (splitNl c)).2 = false := by
      cases hx : (insertRepoFix (splitNl c)).2 with
      | false => rfl
      | true =>
        exfalso
        obtain ⟨l, hl, hcl⟩ := (insertRepoFix_fired_iff _).mp hx
        rw [h l hl] at hcl
        exact absurd hcl (by simp)
    dsimp only
    rw [insertRepoFix_no_line _ hff, joinNl_splitNl, hff]
    rw [replaceAllG, scanRep_of_no_hit tryApt c.length c (no_ci_line_no_apt_hit c h)]
    simp
  · rw [if_neg hg]

/-- One Dockerfile's fix pass is a no-op — same content, zero items —
exactly when no rule applies to that content. -/
theorem fixDockerfile_noop_iff (f c : Chars) :
    fixDockerfile f c = (c, []) ↔ dockerfileRuleApplies c = false := by
  constructor
  · intro h
    have hitems : (fixDockerfile f c).2 = [] := by rw [h]
    simp only [fixDockerfile] at hitems
    rw [List.append_assoc, List.append_eq_nil] at hitems
    obtain ⟨hm2, hbp⟩ := hitems
    rw [List.append_eq_nil] at hbp
    obtain ⟨hb2, hp2⟩ := hbp
    have hmg : ∀ e ∈ BROKEN_MYSQL_IMAGES, containsS c (lit "FROM " ++ e.1) = false := by
      intro e he
      cases hx : containsS c (lit "FROM " ++ e.1) with
      | false => rfl
      | true => exact absurd hm2 ((mysqlFix_ne_nil f _ c).mpr ⟨e, he, hx⟩)
    have hmc : (mysqlFix f BROKEN_MYSQL_IMAGES c).1 = c := by
      rw [mysqlFix_no_guard f _ c hmg]
    rw [hmc] at hb2 hp2
    have hbc : (busterFix f c).1 = c := busterFix_nil_content f c hb2
    rw [hbc] at hp2
    have hcg : containsS c (lit "composer:latest") = false := by
      cases hx : containsS c (lit "composer:latest") with
      | false => rfl
      | true =>
        exfalso
        unfold composerFix at hp2
        rw [if_pos hx] at hp2
        simp at hp2
    have hbst : (usesBuster c && ! containsS c (lit "archive.debian.org") &&
        (splitNl c).any (fun l => containsS (toLowerC l) (lit "apt-get update")))
        = false := by
      by_cases hg : (usesBuster c && ! containsS c (lit "archive.debian.org")) = true
      · have hnofire : (insertRepoFix (splitNl c)).2 = false := by
          cases hx : (insertRepoFix (splitNl c)).2 with
          | false => rfl
          | true =>
            exfalso
            unfold busterFix at hb2
            rw [if_pos hg] at hb2
            dsimp only at hb2
            rw [hx] at hb2
            simp at hb2
        have hnol : (splitNl c).any
            (fun l => containsS (toLowerC l) (lit "apt-get update")) = false := by
          cases hx : (splitNl c).any
              (fun l => containsS (toLowerC l) (lit "apt-get update")) with
          | false => rfl
          | true =>
            exfalso
            obtain ⟨l, hl, hcl⟩ := List.any_eq_true.mp hx
            have hfired := (insertRepoFix_fired_iff (splitNl c)).mpr ⟨l, hl, hcl⟩
            rw [hfired] at hnofire
            exact absurd hnofire (by simp)
        rw [hg, hnol]
        rfl
      · have hgf : (usesBuster c && ! containsS c (lit "archive.debian.org")) = false := by
          simpa using hg
        rw [hgf]
        rfl
    unfold dockerfileRuleApplies
    rw [Bool.or_eq_false_iff, Bool.or_eq_false_iff]
    refine ⟨⟨?_, hbst⟩, hcg⟩
    cases hx : BROKEN_MYSQL_IMAGES.any (fun e => containsS c (lit "FROM " ++ e.1)) with
    | false => rfl
    | true =>
      exfalso
      obtain ⟨e, he, hce⟩ := List.any_eq_true.mp hx
      rw [hmg e he] at hce
      exact absurd hce (by simp)
  · intro h
    unfold dockerfileRuleApplies at h
    rw [Bool.or_eq_false_iff, Bool.or_eq_false_iff] at h
    obtain ⟨⟨h1, h2⟩, h3⟩ := h
    have hmg : ∀ e ∈ BROKEN_MYSQL_IMAGES, containsS c (lit "FROM " ++ e.1) = false := by
      intro e he
      cases hx : containsS c (lit "FROM " ++ e.1) with
      | false => rfl
      | true =>
        exfalso
        have hany : BROKEN_MYSQL_IMAGES.any (fun e => containsS c (lit "FROM " ++ e.1))
            = true := List.any_eq_true.mpr ⟨e, he, hx⟩
        rw [h1] at hany
        exact absurd hany (by simp)
    have hm := mysqlFix_no_guard f _ c hmg
    have hb : busterFix f c = (c, []) := by
      by_cases hg : (usesBuster c && ! containsS c (lit "archive.debian.org")) = true
      · refine busterFix_no_line f c ?_
        intro l hl
        cases hx : containsS (toLowerC l) (lit "apt-get update") with
        | false => rfl
        | true =>
          exfalso
          rw [hg] at h2
          simp only [Bool.true_and] at h2
          have hany : (splitNl c).any
              (fun l => containsS (toLowerC l) (lit "apt-get update")) = true :=
            List.any_eq_true.mpr ⟨l, hl, hx⟩
          rw [h2] at hany
          exact absurd hany (by simp)
      · unfold busterFix
        rw [if_neg hg]
    have hcp : composerFix f c = (c, []) := by
      unfold composerFix
      rw [if_neg (by simp [h3])]
    simp only [fixDockerfile, hm, hb, hcp, List.append_nil, List.nil_append]

theorem map_eq_self_forall {α : Type} (l : List α) (g : α → α) (h : l.map g = l) :
    ∀ x ∈ l, g x = x := by
  induction l with
  | nil => simp
  | cons a as ih =>
    simp only [List.map_cons, List.cons.injEq] at h
    intro x hx
    rcases List.mem_cons.mp hx with rfl | hx2
    · exact h.1
    · exact ih h.2 x hx2

theorem flatten_nil_forall {α : Type} (l : List (List α)) (h : l.flatten = []) :
    ∀ x ∈ l, x = [] := by
  induction l with
  | nil => simp
  | cons a as ih =>
    simp only [List.flatten_cons, List.append_eq_nil] at h
    intro x hx
    rcases List.mem_cons.mp hx with rfl | hx2
    · exact h.1
    · exact ih h.2 x hx2

theorem map_proj_id (l : List (Chars × Chars)) :
    (l.map (fun fc => (fc.1, fc.2, ([] : List FixItem)))).map (fun x => (x.1, x.2.1)) = l := by
  induction l with
  | nil => rfl
  | cons x xs ih => simp [ih]

theorem map_proj_items (l : List (Chars × Chars)) :
    ((l.map (fun fc => (fc.1, fc.2, ([] : List FixItem)))).map (fun x => x.2.2)).flatten
      = [] := by
  induction l with
  | nil => rfl
  | cons x xs ih => simp [ih]

/-- A benchmark-level fix run is a no-op — same contents, zero FixItems —
iff no Dockerfile rule applies to any of its Dockerfiles and no malformed
expose entry is in its compose file. -/
theorem fixBenchmark_noop_iff (b : Benchmark) :
    fixBenchmark b = (b, []) ↔
      ((∀ fc ∈ b.dockerfiles, dockerfileRuleApplies fc.2 = false) ∧
        composeRuleApplies b.compose = false) := by
  constructor
  · intro h
    obtain ⟨dfs, cmp⟩ := b
    simp only [fixBenchmark] at h
    rw [Prod.mk.injEq, Benchmark.mk.injEq] at h
    obtain ⟨⟨hdfs, hcmp⟩, hitems⟩ := h
    rw [List.map_map] at hdfs
    rw [List.map_map, List.append_eq_nil] at hitems
    obtain ⟨hflat, hcp2⟩ := hitems
    have hfile : ∀ fc ∈ dfs, fixDockerfile fc.1 fc.2 = (fc.2, []) := by
      intro fc hfc
      have hcontent := map_eq_self_forall dfs _ hdfs fc hfc
      simp only [Function.comp] at hcontent
      have hc1 : (fixDockerfile fc.1 fc.2).1 = fc.2 := by
        have := congrArg Prod.snd hcontent
        simpa using this
      have hc2 : (fixDockerfile fc.1 fc.2).2 = [] := by
        refine flatten_nil_forall _ hflat _ ?_
        exact List.mem_map.mpr ⟨fc, hfc, rfl⟩
      have hsplit : fixDockerfile fc.1 fc.2
          = ((fixDockerfile fc.1 fc.2).1, (fixDockerfile fc.1 fc.2).2) := rfl
      rw [hsplit, hc1, hc2]
    constructor
    · intro fc hfc
      exact (fixDockerfile_noop_iff fc.1 fc.2).mp (hfile fc hfc)
    · cases cmp with
      | none => rfl
      | some cc =>
        simp only at hcp2
        cases hx : hitG tryExpose cc with
        | false => simpa [composeRuleApplies] using hx
        | true =>
          exfalso
          exact absurd hcp2 ((composeFix_items_iff cc).mpr hx)
  · rintro ⟨hd, hc⟩
    have hds : b.dockerfiles.map (fun fc => (fc.1, fixDockerfile fc.1 fc.2))
        = b.dockerfiles.map (fun fc => (fc.1, fc.2, ([] : List FixItem))) := by
      apply List.map_congr_left
      intro fc hfc
      rw [(fixDockerfile_noop_iff fc.1 fc.2).mpr (hd fc hfc)]
    obtain ⟨dfs, cmp⟩ := b
    simp only at hds hc
    cases cmp with
    | none =>
      simp only [fixBenchmark, hds, map_proj_id, map_proj_items, List.append_nil]
    | some cc =>
      have hnc : hitG tryExpose cc = false := by simpa [composeRuleApplies] using hc
      simp only [fixBenchmark, hds, map_proj_id, map_proj_items,
        composeFix_no_rule cc hnc, List.append_nil]

/-- C2 (amended): fix() is not idempotent in general (see the
counterexample), and the second run is a no-op — identical contents, zero
FixItems — if and only if no rule applies to the first run's output: no
Dockerfile contains a broken-MySQL `FROM` literal or `composer:latest`,
no Buster-gated Dockerfile has a case-insensitive `apt-get update` line,
and the compose file has no malformed expose entry. -/
theorem C2_fix_idempotent_amended (b : Benchmark) :
    fixBenchmark (fixBenchmark b).1 = ((fixBenchmark b).1, []) ↔
      ((∀ fc ∈ (fixBenchmark b).1.dockerfiles, dockerfileRuleApplies fc.2 = false) ∧
        composeRuleApplies (fixBenchmark b).1.compose = false) :=
  fixBenchmark_noop_iff (fixBenchmark b).1

/-- The benchmark of the C2 counterexample. -/
def c2bench : Benchmark :=
  { dockerfiles := [(lit "Dockerfile", lit "FROM mysql:5.7.15.15")], compose := none }

/-- C2 counterexample: on `FROM mysql:5.7.15.15` the first run rewrites
the matched span and leaves `FROM mysql:5.7.15` behind, so the second run
produces another FixItem and changes the file again — fix() is not
idempotent as claimed. -/
theorem C2_counterexample :
    (fixBenchmark (fixBenchmark c2bench).1).2 ≠ [] ∧
    (fixBenchmark (fixBenchmark c2bench).1).1 ≠ (fixBenchmark c2bench).1 := by
  constructor
  · decide
  · decide

/-- The benchmark of the C2 witness. -/
def c2wbench : Benchmark :=
  { dockerfiles := [(lit "Dockerfile", lit "FROM mysql:5.7.15")], compose := none }

/-- C2 witness: on an ordinary broken manifest no rule applies to the
first run's output, and the amended iff yields a no-op second run. -/
theorem C2_fix_idempotent_witness :
    fixBenchmark (fixBenchmark c2wbench).1 = ((fixBenchmark c2wbench).1, []) :=
  (C2_fix_idempotent_amended c2wbench).mpr ⟨by decide, by decide⟩

/- ### C7 — the MySQL round-trip -/

theorem escFirstDot_length (b : Bool) (s : Chars) : (escFirstDot b s).length = s.length := by
  induction s generalizing b with
  | nil => cases b <;> rfl
  | cons c cs ih =>
    cases b with
    | false =>
      by_cases h : (c == '.') = true
      · simp [escFirstDot, h, ih]
      · simp [escFirstDot, h, ih]
    | true =>
      by_cases h : (c == '.') = true
      · simp [escFirstDot, h, ih]
      · simp [escFirstDot, h, ih]

/-- The literal `FROM mysql:5.7.15` is always an instance of the first
entry's regex: the matcher fires on any string starting with it,
consuming exactly the 17 literal characters. -/
theorem tryMysql15_lit (u : Chars) :
    tryMysql (escFirstDot false (lit "mysql:5.7.15")) (lit "mysql:5.7")
        (lit "FROM mysql:5.7.15" ++ u)
      = some (lit "FROM " ++ lit "mysql:5.7", 17) := rfl

/-- Every firing of a MySQL-entry matcher with replacement image
`mysql:5.7` emits `FROM mysql:5.7`; spans are at least as long as the
replacement whenever the escaped pattern has ≥ 9 tokens. -/
theorem tryMysql_bounds_le (oldI s r : Chars) (k : Nat)
    (h9 : 9 ≤ oldI.length)
    (h : tryMysql (escFirstDot false oldI) (lit "mysql:5.7") s = some (r, k)) :
    r.length ≤ k ∧ k ≤ s.length := by
  obtain ⟨hr, hk5, hks⟩ := tryMysql_some _ _ _ _ _ h
  have hrl : r.length = 14 := by rw [hr]; rfl
  have hpl : (escFirstDot false oldI).length = oldI.length := escFirstDot_length _ _
  refine ⟨?_, hks⟩
  omega

theorem tryMysql15_bounds_lt (s r : Chars) (k : Nat)
    (h : tryMysql (escFirstDot false (lit "mysql:5.7.15")) (lit "mysql:5.7") s
          = some (r, k)) :
    r.length < k ∧ k ≤ s.length := by
  obtain ⟨hr, hk5, hks⟩ := tryMysql_some _ _ _ _ _ h
  have hrl : r.length = 14 := by rw [hr]; rfl
  have hpl : (escFirstDot false (lit "mysql:5.7.15")).length = 12 := rfl
  refine ⟨?_, hks⟩
  omega

theorem mysqlFix_files (f : Chars) (es : List (Chars × Chars)) (c : Chars) :
    ∀ i ∈ (mysqlFix f es c).2, i.file = f := by
  induction es generalizing c with
  | nil => simp [mysqlFix]
  | cons e es ih =>
    obtain ⟨oldI, newI⟩ := e
    by_cases h : containsS c (lit "FROM " ++ oldI) = true
    · simp only [mysqlFix, h, if_true]
      intro i hi
      rcases List.mem_cons.mp hi with rfl | hi'
      · rfl
      · exact ih _ i hi'
    · have hf : containsS c (lit "FROM " ++ oldI) = false := by simpa using h
      simp only [mysqlFix, hf, Bool.false_eq_true, if_false]
      exact ih c

/-- Once the content contains `FROM mysql:5.7`, every further MySQL entry
pass keeps it: a pass either changes nothing or emits the very same
replacement text. -/
theorem mysqlFix_keeps_target (f : Chars) (es : List (Chars × Chars)) (c : Chars)
    (hes : ∀ e ∈ es, e.2 = lit "mysql:5.7")
    (h : containsS c (lit "FROM mysql:5.7") = true) :
    containsS (mysqlFix f es c).1 (lit "FROM mysql:5.7") = true := by
  induction es generalizing c with
  | nil => simpa [mysqlFix] using h
  | cons e es ih =>
    obtain ⟨oldI, newI⟩ := e
    have hnew : newI = lit "mysql:5.7" := hes (oldI, newI) (List.mem_cons_self _ _)
    subst hnew
    by_cases hg : containsS c (lit "FROM " ++ oldI) = true
    · simp only [mysqlFix, hg, if_true]
      have hR : ∀ s' r' k', tryMysql (escFirstDot false oldI) (lit "mysql:5.7") s'
            = some (r', k') → r' = lit "FROM " ++ lit "mysql:5.7" :=
        fun s' r' k' h' => (tryMysql_some _ _ _ _ _ h').1
      rcases scanRep_eq_or_contains _ _ hR c.length c with heq | hcont
      · exact ih _ (fun e he => hes e (List.mem_cons_of_mem _ he))
          (by rwa [replaceAllG, heq])
      · exact ih _ (fun e he => hes e (List.mem_cons_of_mem _ he))
          (by exact hcont)
    · have hgf : containsS c (lit "FROM " ++ oldI) = false := by simpa using hg
      simp only [mysqlFix, hgf, Bool.false_eq_true, if_false]
      exact ih c (fun e he => hes e (List.mem_cons_of_mem _ he)) h

/-- No MySQL entry pass ever lengthens the content. -/
theorem mysqlFix_length_le (f : Chars) (es : List (Chars × Chars)) (c : Chars)
    (hes : ∀ e ∈ es, 9 ≤ e.1.length ∧ e.2 = lit "mysql:5.7") :
    (mysqlFix f es c).1.length ≤ c.length := by
  induction es generalizing c with
  | nil => simp [mysqlFix]
  | cons e es ih =>
    obtain ⟨oldI, newI⟩ := e
    obtain ⟨h9, hnew⟩ := hes (oldI, newI) (List.mem_cons_self _ _)
    subst hnew
    by_cases hg : containsS c (lit "FROM " ++ oldI) = true
    · simp only [mysqlFix, hg, if_true]
      calc (mysqlFix f es (replaceAllG (tryMysql (escFirstDot false oldI) (lit "mysql:5.7")) c)).1.length
          ≤ (replaceAllG (tryMysql (escFirstDot false oldI) (lit "mysql:5.7")) c).length :=
            ih _ (fun e he => hes e (List.mem_cons_of_mem _ he))
        _ ≤ c.length :=
            scanRep_length_le _ (fun s' r' k' h' => tryMysql_bounds_le oldI s' r' k' h9 h')
              c.length c
    · have hgf : containsS c (lit "FROM " ++ oldI) = false := by simpa using hg
      simp only [mysqlFix, hgf, Bool.false_eq_true, if_false]
      exact ih c (fun e he => hes e (List.mem_cons_of_mem _ he))

/-- The first-entry pass on a content containing the broken literal:
the result contains `FROM mysql:5.7`, is strictly shorter, and an item is
recorded; the remaining entries keep all three. -/
theorem mysqlFix_literal (f : Chars) (c : Chars)
    (h : containsS c (lit "FROM mysql:5.7.15") = true) :
    containsS (mysqlFix f BROKEN_MYSQL_IMAGES c).1 (lit "FROM mysql:5.7") = true ∧
    (mysqlFix f BROKEN_MYSQL_IMAGES c).1.length < c.length ∧
    (mysqlFix f BROKEN_MYSQL_IMAGES c).2 ≠ [] := by
  have hg : containsS c (lit "FROM " ++ lit "mysql:5.7.15") = true := by
    have : lit "FROM " ++ lit "mysql:5.7.15" = lit "FROM mysql:5.7.15" := rfl
    rw [this]
    exact h
  have hhit : scanHit (tryMysql (escFirstDot false (lit "mysql:5.7.15")) (lit "mysql:5.7"))
      c.length c = true := by
    refine scanHit_of_containsS _ (lit "FROM mysql:5.7.15") (by decide) ?_ c.length c h
      (Nat.le_refl _)
    intro u
    rw [tryMysql15_lit u]
    rfl
  have hR : ∀ s' r' k', tryMysql (escFirstDot false (lit "mysql:5.7.15")) (lit "mysql:5.7") s'
        = some (r', k') → r' = lit "FROM " ++ lit "mysql:5.7" :=
    fun s' r' k' h' => (tryMysql_some _ _ _ _ _ h').1
  have hcont : containsS
      (replaceAllG (tryMysql (escFirstDot false (lit "mysql:5.7.15")) (lit "mysql:5.7")) c)
      (lit "FROM mysql:5.7") = true := by
    have := scanRep_contains_of_hit _ _ hR c.length c hhit
    exact this
  have hlt : (replaceAllG (tryMysql (escFirstDot false (lit "mysql:5.7.15")) (lit "mysql:5.7")) c).length
      < c.length :=
    scanRep_length_lt _ (fun s' r' k' h' => tryMysql15_bounds_lt s' r' k' h') c.length c hhit
  -- unfold the first entry of the table
  have htable : BROKEN_MYSQL_IMAGES
      = (lit "mysql:5.7.15", lit "mysql:5.7") ::
        [(lit "mysql:5.7.14", lit "mysql:5.7"),
         (lit "mysql:5.7.13", lit "mysql:5.7"),
         (lit "mysql:5.7.12", lit "mysql:5.7"),
         (lit "mysql:5.6", lit "mysql:5.7")] := rfl
  rw [htable]
  simp only [mysqlFix, hg, if_true]
  have htail : ∀ e ∈ [(lit "mysql:5.7.14", lit "mysql:5.7"),
      (lit "mysql:5.7.13", lit "mysql:5.7"),
      (lit "mysql:5.7.12", lit "mysql:5.7"),
      (lit "mysql:5.6", lit "mysql:5.7")], 9 ≤ e.1.length ∧ e.2 = lit "mysql:5.7" := by
    decide
  refine ⟨?_, ?_, ?_⟩
  · exact mysqlFix_keeps_target f _ _ (fun e he => (htail e he).2) hcont
  · exact Nat.lt_of_le_of_lt
      (mysqlFix_length_le f _ _ htail) hlt
  · simp

/-- Every Buster pass either records no item or was entered with an
insertion actually firing. -/
theorem busterFix_items_cases (f c : Chars) :
    (busterFix f c).2 = [] ∨
    ((usesBuster c && ! containsS c (lit "archive.debian.org")) = true ∧
      (insertRepoFix (splitNl c)).2 = true) := by
  unfold busterFix
  by_cases hg : (usesBuster c && ! containsS c (lit "archive.debian.org")) = true
  · rw [if_pos hg]
    dsimp only
    by_cases hfired : (insertRepoFix (splitNl c)).2 = true
    · exact Or.inr ⟨hg, hfired⟩
    · left
      rw [if_neg hfired]
  · rw [if_neg hg]
    exact Or.inl rfl

/-- A fired Buster pass leaves `archive.debian.org` in the content: the
inserted repo line contains it and the apt rewrite cannot remove it. -/
theorem busterFix_fired_archive (f c : Chars)
    (hg : (usesBuster c && ! containsS c (lit "archive.debian.org")) = true)
    (hfired : (insertRepoFix (splitNl c)).2 = true) :
    containsS (busterFix f c).1 (lit "archive.debian.org") = true := by
  unfold busterFix
  rw [if_pos hg]
  dsimp only
  rw [replaceAllG_contains_eq tryApt _ (tryApt_spanOk _ (by decide)) _]
  rw [containsS_joinNl _ _ (by decide) (by decide)]
  refine ⟨lit "RUN echo \"deb http://archive.debian.org/debian buster main\" > /etc/apt/sources.list && \\",
    ?_, by decide⟩
  exact insertRepoFix_fired_mem _ hfired _ (by decide)

theorem hasPre_hasPreCI (p s : Chars) (h : hasPre p s = true) : hasPreCI p s = true := by
  induction p generalizing s with
  | nil => rfl
  | cons a ps ih =>
    cases s with
    | nil => simp [hasPre] at h
    | cons c cs =>
      simp only [hasPre, Bool.and_eq_true, beq_iff_eq] at h
      obtain ⟨rfl, h2⟩ := h
      simp only [hasPreCI, Bool.and_eq_true]
      exact ⟨by simp [lowEq], ih cs h2⟩

/-- A firing composer pass strictly shortens the content (each span of 15
characters becomes 12). -/
theorem composerFix_changes (f c : Chars)
    (hg : containsS c (lit "composer:latest") = true) :
    (composerFix f c).1.length < c.length := by
  unfold composerFix
  rw [if_pos hg]
  dsimp only
  have hhit : scanHit tryComposer c.length c = true := by
    refine scanHit_of_containsS tryComposer (lit "composer:latest") (by decide) ?_
      c.length c hg (Nat.le_refl _)
    intro u
    unfold tryComposer
    rw [if_pos (hasPre_hasPreCI _ _ (hasPre_append _ u))]
    rfl
  refine scanRep_length_lt tryComposer ?_ c.length c hhit
  intro s r k hm
  obtain ⟨hr, hk, hks, _⟩ := tryComposer_some s r k hm
  subst hr
  subst hk
  exact ⟨by decide, hks⟩

/-- C7 (amended): for every Dockerfile content containing
`FROM mysql:5.7.15`, fix() changes the file (so the write-back happens),
the fixed content contains `FROM mysql:5.7` — the later Buster and
composer passes cannot remove it — at least one FixItem is produced, and
every FixItem references exactly this file.  The original claim's "no
longer contains `FROM mysql:5.7.15`" is dropped: it fails (see the
counterexample). -/
theorem C7_mysql_roundtrip_amended (f c : Chars)
    (h : containsS c (lit "FROM mysql:5.7.15") = true) :
    containsS (fixDockerfile f c).1 (lit "FROM mysql:5.7") = true ∧
    (fixDockerfile f c).1 ≠ c ∧
    (fixDockerfile f c).2 ≠ [] ∧
    ∀ i ∈ (fixDockerfile f c).2, i.file = f := by
  obtain ⟨hc1, hc2, hc3⟩ := mysqlFix_literal f c h
  have hfd1 : (fixDockerfile f c).1
      = (composerFix f (busterFix f (mysqlFix f BROKEN_MYSQL_IMAGES c).1).1).1 := rfl
  have hfd2 : (fixDockerfile f c).2
      = (mysqlFix f BROKEN_MYSQL_IMAGES c).2 ++
        (busterFix f (mysqlFix f BROKEN_MYSQL_IMAGES c).1).2 ++
        (composerFix f (busterFix f (mysqlFix f BROKEN_MYSQL_IMAGES c).1).1).2 := rfl
  refine ⟨?_, ?_, ?_, ?_⟩
  · rw [hfd1]
    rw [composerFix_preserves f _ _ (by decide)]
    rw [busterFix_preserves f _ _ (by decide) (by decide) (by decide) (by decide)]
    exact hc1
  · rw [hfd1]
    rcases busterFix_items_cases f (mysqlFix f BROKEN_MYSQL_IMAGES c).1 with
      hbnil | ⟨hg, hfired⟩
    · have hbid : (busterFix f (mysqlFix f BROKEN_MYSQL_IMAGES c).1).1
          = (mysqlFix f BROKEN_MYSQL_IMAGES c).1 := busterFix_nil_content f _ hbnil
      by_cases hcg : containsS (busterFix f (mysqlFix f BROKEN_MYSQL_IMAGES c).1).1
          (lit "composer:latest") = true
      · have hlt := composerFix_changes f _ hcg
        intro he
        rw [he, hbid] at hlt
        omega
      · have hcpid : (composerFix f (busterFix f (mysqlFix f BROKEN_MYSQL_IMAGES c).1).1).1
            = (busterFix f (mysqlFix f BROKEN_MYSQL_IMAGES c).1).1 := by
          unfold composerFix
          rw [if_neg hcg]
        rw [hcpid, hbid]
        intro he
        rw [he] at hc2
        exact absurd hc2 (by omega)
    · have harch_b : containsS (busterFix f (mysqlFix f BROKEN_MYSQL_IMAGES c).1).1
          (lit "archive.debian.org") = true := busterFix_fired_archive f _ hg hfired
      have harch_p : containsS
          (composerFix f (busterFix f (mysqlFix f BROKEN_MYSQL_IMAGES c).1).1).1
          (lit "archive.debian.org") = true := by
        rw [composerFix_preserves f _ _ (by decide)]
        exact harch_b
      have harch_c : containsS c (lit "archive.debian.org") = false := by
        have hm1 : containsS (mysqlFix f BROKEN_MYSQL_IMAGES c).1
            (lit "archive.debian.org") = false := by
          have hg2 := hg
          simp only [Bool.and_eq_true, Bool.not_eq_true'] at hg2
          exact hg2.2
        rw [← mysqlFix_preserves_lit f c (lit "archive.debian.org") (by decide)
          (by decide) (by decide) (by decide) (by decide)]
        exact hm1
      intro he
      rw [he, harch_c] at harch_p
      exact absurd harch_p (by simp)
  · rw [hfd2]
    intro he
    rw [List.append_assoc, List.append_eq_nil] at he
    exact hc3 he.1
  · rw [hfd2]
    intro i hi
    rcases List.mem_append.mp hi with h1 | h2
    · rcases List.mem_append.mp h1 with h3 | h4
      · exact mysqlFix_files f _ c i h3
      · exact busterFix_files f _ i h4
    · exact composerFix_files f _ i h2

/-- C7 counterexample: on `FROM mysql:5.7.15.15` (which contains the
broken literal) the fixed content STILL contains `FROM mysql:5.7.15`, so
"after fix() the content no longer contains `FROM mysql:5.7.15`" is false. -/
theorem C7_counterexample :
    containsS (lit "FROM mysql:5.7.15.15") (lit "FROM mysql:5.7.15") = true ∧
    containsS (fixDockerfile (lit "Dockerfile") (lit "FROM mysql:5.7.15.15")).1
        (lit "FROM mysql:5.7.15") = true := by
  constructor
  · decide
  · decide

/-- C7 witness: the amended theorem applied to the plain broken manifest
`FROM mysql:5.7.15`. -/
theorem C7_mysql_roundtrip_witness :
    containsS
        (fixDockerfile (lit "Dockerfile") (lit "FROM mysql:5.7.15")).1
        (lit "FROM mysql:5.7") = true ∧
    (fixDockerfile (lit "Dockerfile") (lit "FROM mysql:5.7.15")).1 ≠ lit "FROM mysql:5.7.15" ∧
    (fixDockerfile (lit "Dockerfile") (lit "FROM mysql:5.7.15")).2 ≠ [] ∧
    ∀ i ∈ (fixDockerfile (lit "Dockerfile") (lit "FROM mysql:5.7.15")).2,
      i.file = lit "Dockerfile" :=
  C7_mysql_roundtrip_amended (lit "Dockerfile") (lit "FROM mysql:5.7.15") (by decide)

/- ### C8 — output ordering -/

theorem insSorted_perm (x : BenchmarkInfo) (l : List BenchmarkInfo) :
    List.Perm (insSorted x l) (x :: l) := by
  induction l with
  | nil => exact List.Perm.refl _
  | cons y ys ih =>
    by_cases h : benchKey y.id < benchKey x.id
    · simp only [insSorted, if_pos h]
      exact List.Perm.trans (List.Perm.cons y ih) (List.Perm.swap x y ys)
    · simp only [insSorted, if_neg h]
      exact List.Perm.refl _

theorem sortBenchmarks_perm (l : List BenchmarkInfo) :
    List.Perm (sortBenchmarks l) l := by
  induction l with
  | nil => exact List.Perm.refl _
  | cons x xs ih =>
    exact List.Perm.trans (insSorted_perm x (sortBenchmarks xs)) (List.Perm.cons x ih)

theorem mem_insSorted (z x : BenchmarkInfo) (l : List BenchmarkInfo) :
    z ∈ insSorted x l ↔ z = x ∨ z ∈ l := by
  rw [(insSorted_perm x l).mem_iff]
  simp

theorem insSorted_pairwise (x : BenchmarkInfo) (l : List BenchmarkInfo)
    (hl : List.Pairwise (fun a b => benchKey a.id ≤ benchKey b.id) l) :
    List.Pairwise (fun a b => benchKey a.id ≤ benchKey b.id) (insSorted x l) := by
  induction l with
  | nil => simp [insSorted]
  | cons y ys ih =>
    obtain ⟨hy, hys⟩ := List.pairwise_cons.mp hl
    by_cases h : benchKey y.id < benchKey x.id
    · simp only [insSorted, if_pos h]
      refine List.pairwise_cons.mpr ⟨?_, ih hys⟩
      intro z hz
      rcases (mem_insSorted z x ys).mp hz with rfl | hz'
      · exact Nat.le_of_lt h
      · exact hy z hz'
    · simp only [insSorted, if_neg h]
      refine List.pairwise_cons.mpr ⟨?_, hl⟩
      intro z hz
      rcases List.mem_cons.mp hz with rfl | hz'
      · exact Nat.le_of_not_lt h
      · exact Nat.le_trans (Nat.le_of_not_lt h) (hy z hz')

theorem insSorted_filter_key (x : BenchmarkInfo) (l : List BenchmarkInfo) (v : Nat) :
    (insSorted x l).filter (fun b => benchKey b.id == v)
      = (x :: l).filter (fun b => benchKey b.id == v) := by
  induction l with
  | nil => rfl
  | cons y ys ih =>
    by_cases h : benchKey y.id < benchKey x.id
    · simp only [insSorted, if_pos h]
      by_cases hy : (benchKey y.id == v) = true
      · by_cases hx : (benchKey x.id == v) = true
        · exfalso
          have h1 : benchKey y.id = v := by simpa using hy
          have h2 : benchKey x.id = v := by simpa using hx
          omega
        · have hx' : (benchKey x.id == v) = false := by simpa using hx
          simp [List.filter_cons, hy, hx', ih]
      · have hy' : (benchKey y.id == v) = false := by simpa using hy
        by_cases hx : (benchKey x.id == v) = true
        · simp [List.filter_cons, hy', hx, ih]
        · have hx' : (benchKey x.id == v) = false := by simpa using hx
          simp [List.filter_cons, hy', hx', ih]
    · simp only [insSorted, if_neg h]

theorem sortBenchmarks_filter_key (l : List BenchmarkInfo) (v : Nat) :
    (sortBenchmarks l).filter (fun b => benchKey b.id == v)
      = l.filter (fun b => benchKey b.id == v) := by
  induction l with
  | nil => rfl
  | cons x xs ih =>
    show (insSorted x (sortBenchmarks xs)).filter (fun b => benchKey b.id == v) = _
    rw [insSorted_filter_key]
    simp only [List.filter_cons]
    rw [ih]

theorem sortBenchmarks_pairwise (l : List BenchmarkInfo) :
    List.Pairwise (fun a b => benchKey a.id ≤ benchKey b.id) (sortBenchmarks l) := by
  induction l with
  | nil => simp [sortBenchmarks]
  | cons x xs ih => exact insSorted_pairwise x _ ih

/-- C8 (amended): the refresh output is the stable ascending sort of the
assembled units by the key the source parses — the FIRST occurrence of
`XBEN-` followed by digits ANYWHERE in the directory name, 0 when there
is none: it is a permutation of the assembled (discovery-ordered) list,
its keys ascend pairwise, and units with equal keys keep their discovery
order.  The spec's "digits after the fixed XBEN- prefix" key is refuted
by the counterexample. -/
theorem C8_sort_amended (dirs : List BenchmarkDir)
    (cR : Except Unit (List RawContainer)) (iR : Except Unit (List ImageInfo)) :
    List.Perm (listBenchmarks dirs cR iR)
        (dirs.map (fun d => getBenchmarkInfoFast d (caught cR) (caught iR))) ∧
    List.Pairwise (fun a b => benchKey a.id ≤ benchKey b.id) (listBenchmarks dirs cR iR) ∧
    ∀ v : Nat, (listBenchmarks dirs cR iR).filter (fun b => benchKey b.id == v)
      = (dirs.map (fun d => getBenchmarkInfoFast d (caught cR) (caught iR))).filter
          (fun b => benchKey b.id == v) :=
  ⟨sortBenchmarks_perm _, sortBenchmarks_pairwise _,
    fun v => sortBenchmarks_filter_key _ v⟩

/-- The spec's sort key, written from the spec's words for comparison:
the digits immediately after the `XBEN-` prefix, 0 when there is no
parseable number there. -/
def specNumericId (s : Chars) : Nat :=
  if hasPre (lit "XBEN-") s then digitsToNat (spanDigits (s.drop 5)).1 else 0

/-- The first discovered directory of the C8 counterexample. -/
def c8dirA : BenchmarkDir :=
  { dirName := lit "XBEN-A-XBEN-002", manifest := none,
    hasCompose := false, hasMakefile := false }

/-- The second discovered directory of the C8 counterexample. -/
def c8dirB : BenchmarkDir :=
  { dirName := lit "XBEN-001", manifest := none,
    hasCompose := false, hasMakefile := false }

/-- C8 counterexample: for the discovered units `XBEN-A-XBEN-002` (no
digits after the prefix, so spec key 0) and `XBEN-001` (spec key 1), the
refresh output is NOT ascending in the spec's digits-after-prefix key:
the source keys the first unit by the later `XBEN-002` occurrence. -/
theorem C8_counterexample :
    ¬ List.Pairwise (fun a b => specNumericId a.id ≤ specNumericId b.id)
        (listBenchmarks [c8dirA, c8dirB] (.ok []) (.ok [])) := by
  decide

/- ### C3 — daemon unreachable -/

theorem mem_sortBenchmarks (b : BenchmarkInfo) (l : List BenchmarkInfo) :
    b ∈ sortBenchmarks l ↔ b ∈ l :=
  (sortBenchmarks_perm l).mem_iff

/-- C3 (amended): a fleet refresh with the container daemon unreachable
does not propagate the failure — the shared fetches are caught to empty
lists — and every unit's derived status is `stopped`, not `unknown` (the
value the claim expects is declared in the status union but never
produced). -/
theorem C3_daemon_unreachable_amended (dirs : List BenchmarkDir) (b : BenchmarkInfo)
    (hb : b ∈ listBenchmarks dirs (.error ()) (.error ())) : b.status = .stopped := by
  unfold listBenchmarks at hb
  rw [mem_sortBenchmarks] at hb
  obtain ⟨d, hd, rfl⟩ := List.mem_map.mp hb
  rfl

/-- The directory of the C3 counterexample and witness. -/
def c3dir : BenchmarkDir :=
  { dirName := lit "XBEN-001-24", manifest := none,
    hasCompose := false, hasMakefile := false }

/-- C3 counterexample: with the daemon unreachable the refresh derives
status `stopped` for the unit — and `stopped` is not `unknown`, so the
claim that every unit's status is `unknown` is false on the code. -/
theorem C3_counterexample :
    (listBenchmarks [c3dir] (.error ()) (.error ())).map (fun b => b.status)
      = [Status.stopped] ∧ Status.stopped ≠ Status.unknown := by
  constructor
  · decide
  · decide

/-- C3 witness: the amended theorem at one concrete directory. -/
theorem C3_daemon_unreachable_witness :
    (getBenchmarkInfoFast c3dir [] []).status = Status.stopped :=
  C3_daemon_unreachable_amended [c3dir] (getBenchmarkInfoFast c3dir [] []) (by decide)

/- ### C6 — image removal -/

/-- C6: `deleteBenchmarkImages` walks the whole image list and collects
exactly the first matching repo tag (unit name as case-insensitive
substring) of every image whose forced removal succeeds; an image whose
removal fails — or that has no matching tag — is skipped without aborting
the rest of the batch (splicing a failing image into the list leaves the
other removals untouched); on the spec's example fleet only
`xben-010-app:latest` is removed and reported. -/
theorem C6_remove_images :
    (∀ (bid : Chars) (l : List (ImageInfo × Bool)),
      deleteBenchmarkImages bid l =
        l.filterMap (fun p =>
          if p.2 then
            (p.1.repoTags.getD []).find? (fun t => containsS (toLowerC t) (toLowerC bid))
          else none)) ∧
    (∀ (bid : Chars) (l₁ l₂ : List (ImageInfo × Bool)) (img : ImageInfo),
      deleteBenchmarkImages bid (l₁ ++ (img, false) :: l₂)
        = deleteBenchmarkImages bid l₁ ++ deleteBenchmarkImages bid l₂) ∧
    deleteBenchmarkImages (lit "XBEN-010")
        [({ repoTags := some [lit "xben-010-app:latest"] }, true),
         ({ repoTags := some [lit "other:latest"] }, true)]
      = [lit "xben-010-app:latest"] := by
  have h1 : ∀ (bid : Chars) (l : List (ImageInfo × Bool)),
      deleteBenchmarkImages bid l =
        l.filterMap (fun p =>
          if p.2 then
            (p.1.repoTags.getD []).find? (fun t => containsS (toLowerC t) (toLowerC bid))
          else none) := by
    intro bid l
    induction l with
    | nil => rfl
    | cons p rest ih =>
      obtain ⟨img, ok⟩ := p
      cases hf : (img.repoTags.getD []).find? (fun t => containsS (toLowerC t) (toLowerC bid)) with
      | some t =>
        cases ok with
        | true => simp [deleteBenchmarkImages, hf, List.filterMap_cons, ih]
        | false => simp [deleteBenchmarkImages, hf, List.filterMap_cons, ih]
      | none =>
        cases ok with
        | true => simp [deleteBenchmarkImages, hf, List.filterMap_cons, ih]
        | false => simp [deleteBenchmarkImages, hf, List.filterMap_cons, ih]
  refine ⟨h1, ?_, ?_⟩
  · intro bid l₁ l₂ img
    rw [h1, h1, h1, List.filterMap_append]
    simp [List.filterMap_cons]
  · decide

/- ### C9 — manifest parsing fails soft -/

/-- The raw container of the C10 witness: one published binding
(80 → 8080) and one unpublished binding (443, no public port). -/
def c10raw : RawContainer :=
  { id := lit "0123456789abcdef", names := [lit "/xben-001-24-web-1"],
    image := lit "img", statusText := lit "Up 2 minutes", state := lit "running",
    ports := [{ privatePort := 80, publicPort := some 8080 },
              { privatePort := 443, publicPort := none }],
    composeProject := none, created := 0 }

/-- C10 witness: the invariant applied to a concrete container with one
published and one unpublished binding. -/
theorem C10_ports_invariant_witness :
    ((80, [natChars 8080]).2 ≠ [] ∧
      ∀ s ∈ (80, [natChars 8080]).2, ∃ n : Nat, n ≠ 0 ∧ s = natChars n) ∧
    (∃ m ∈ (toContainerInfo c10raw).portMappings,
        m.pub ≠ 0 ∧ portStr { priv := 80, pub := 8080 } = portStr m) :=
  ⟨C10_ports_invariant.1 [toContainerInfo c10raw] (80, [natChars 8080]) (by decide),
   C10_ports_invariant.2 c10raw (portStr { priv := 80, pub := 8080 }) (by decide)⟩

end XBow
